import Mathlib

/-!
# Verification of the lancelot emulator MMU (`src/core/src/emu/mmu.rs`)

Shallow embedding of the MMU: the frame pool (`PageFrames`), page flags
(`bitflags` over `u32`, modelled as `Nat` bit masks), the mapping table
(`BTreeMap<VA, (PFN, PageFlags)>`, modelled as a key-sorted association
list with the same lookup/insert/remove behaviour), and the public
operations `mmap`, `munmap`, `read`/`read_uN`/`read_page`,
`write`/`write_uN`/`write_page` together with the internal
`probe_read`/`probe_write`.

Modelling conventions:
* machine integers (`u64` addresses, `usize` sizes) are `Nat`; the Rust
  code's arithmetic never relies on wrap-around in the regimes the
  theorems quantify over (overflow is a debug-mode panic in Rust, i.e. a
  caller error, and the asserted preconditions appear as hypotheses);
* `assert!` preconditions (page alignment, `buf.len() <= PAGE_SIZE`,
  `page_count <= u32::MAX`, allocation-bit checks) are Rust panics, not
  observable results; they appear as hypotheses of the theorems, which
  also establish that the asserts cannot fire in the states considered;
* fallible operations return `Except MMUError`; `write`, `mmap` and
  `munmap` return the (possibly partially) updated state together with
  an `Option MMUError`, because a failed split `write` in the Rust code
  can leave the first half materialized;
* a frame is a byte function `Nat → Nat` (offsets `≥ PAGE_SIZE` unused);
  indexing the frame vector out of range is a Rust panic and is modelled
  with a default (`List.getD`); all theorems only index frames proved in
  range via the well-formedness invariant.
-/

namespace Lancelot

/-- `PAGE_SIZE` from mmu.rs (`0x1000`). -/
def PAGE_SIZE : Nat := 0x1000
/-- `PAGE_SHIFT` from mmu.rs (`12`). -/
def PAGE_SHIFT : Nat := 12
/-- `PAGE_MASK` from mmu.rs (`0xFFF`). -/
def PAGE_MASK : Nat := 0xFFF

/-- virtual address (`type VA = u64`). -/
abbrev VA := Nat
/-- page frame number (`type PFN = u32`). -/
abbrev PFN := Nat

/-- `INVALID_PFN: PFN = u32::MAX`, sentinel marking "no backing frame". -/
def INVALID_PFN : Nat := 4294967295

/-- `type PageFrame = [u8; PAGE_SIZE]`, as a byte function. -/
abbrev PageFrame := Nat → Nat

/-- `EMPTY_PAGE`: the all-zero page frame. -/
def EMPTY_PAGE : PageFrame := fun _ => 0

/-- `PageFlags` is a `bitflags` struct over `u32`; we model flag values as
`Nat` bit masks. -/
abbrev PageFlags := Nat

/-- `PageFlags::PERM_R = 0b00000001` -/
def PageFlags.PERM_R : Nat := 1
/-- `PageFlags::PERM_W = 0b00000010` -/
def PageFlags.PERM_W : Nat := 2
/-- `PageFlags::PERM_X = 0b00000100` -/
def PageFlags.PERM_X : Nat := 4
/-- `PageFlags::PERM_RW = PERM_R | PERM_W` -/
def PageFlags.PERM_RW : Nat := 3
/-- `PageFlags::PERM_RX = PERM_R | PERM_X` -/
def PageFlags.PERM_RX : Nat := 5
/-- `PageFlags::PERM_WX = PERM_W | PERM_X` -/
def PageFlags.PERM_WX : Nat := 6
/-- `PageFlags::PERM_RWX = PERM_R | PERM_W | PERM_X` -/
def PageFlags.PERM_RWX : Nat := 7
/-- `PageFlags::ZERO = 0b00001000` (lazy zero page, no backing frame). -/
def PageFlags.ZERO : Nat := 8
/-- `PageFlags::COW = 0b00010000` (copy-on-write page). -/
def PageFlags.COW : Nat := 16

/-- union of all defined `PageFlags` bits; `from_bits_truncate` masks with
this value. -/
def PageFlags.ALL : Nat := 31

/-- `bitflags` `intersects`: the two flag sets share at least one bit. -/
def PageFlags.intersects (a b : Nat) : Bool := a &&& b ≠ 0

/-- `bitflags` `remove`: `self.bits &= !other.bits` over `u32`. -/
def PageFlags.removeFlag (a b : Nat) : Nat := a &&& (4294967295 ^^^ b)

/-- `bitflags` `from_bits_truncate`: keep only defined bits. -/
def PageFlags.from_bits_truncate (v : Nat) : Nat := v &&& PageFlags.ALL

/-- `Permissions` (from `crate::module`): a `u8` bitflags capability set
with defined bits `R = 0b001`, `W = 0b010`, `X = 0b100` (the `PageFlags`
permission bits "match `crate::module::Permissions`", and the spec calls
it a 3-bit capability set).  Values constructed through the safe
`bitflags` API satisfy `perms < 8`. -/
abbrev Permissions := Nat

/-- `Permissions::R` -/
def Permissions.R : Nat := 1
/-- `Permissions::W` -/
def Permissions.W : Nat := 2
/-- `Permissions::X` -/
def Permissions.X : Nat := 4
/-- `Permissions::RW` -/
def Permissions.RW : Nat := 3

/-- `enum MMUError` from mmu.rs. -/
inductive MMUError where
  | AddressAlreadyMapped (va : Nat)
  | AddressNotMapped (va : Nat)
  | AddressNotReadable (va : Nat)
  | AddressNotWritable (va : Nat)
deriving DecidableEq, Repr

/-- `fn is_page_aligned(va: VA) -> bool { va & PAGE_MASK == 0x0 }` -/
def is_page_aligned (va : Nat) : Bool := va &&& PAGE_MASK == 0

/-- `fn page_number(va: VA) -> u64 { (va >> PAGE_SHIFT) << PAGE_SHIFT }` -/
def page_number (va : Nat) : Nat := (va >>> PAGE_SHIFT) <<< PAGE_SHIFT

/-- `fn page_offset(va: VA) -> usize { (va & PAGE_MASK) as usize }` -/
def page_offset (va : Nat) : Nat := va &&& PAGE_MASK

/-- `struct PageFrames`: the frame pool — frame vector plus parallel
allocation bitmap. -/
structure PageFrames where
  frames : List PageFrame
  allocation_bitmap : List Bool

/-- `PageFrames::default()`: empty pool. -/
def PageFrames.empty : PageFrames := ⟨[], []⟩

/-- frame access by PFN (`impl Index<PFN> for PageFrames`); out-of-range
access is a Rust panic, modelled with the `EMPTY_PAGE` default and only
used at indices proved in range. -/
def PageFrames.get (pfs : PageFrames) (pfn : Nat) : PageFrame :=
  pfs.frames.getD pfn EMPTY_PAGE

/-- frame update by PFN (`impl IndexMut<PFN> for PageFrames`). -/
def PageFrames.setFrame (pfs : PageFrames) (pfn : Nat) (pf : PageFrame) : PageFrames :=
  { pfs with frames := pfs.frames.set pfn pf }

/-- `PageFrames::allocate`: scan the allocation bitmap for the first free
bit; if found, mark it used and return it; otherwise append a fresh zero
frame and return its index (`frames.len() - 1` after the push). -/
def PageFrames.allocate (pfs : PageFrames) : PageFrames × Nat :=
  match pfs.allocation_bitmap.findIdx? (fun b => !b) with
  | some pfn => ({ pfs with allocation_bitmap := pfs.allocation_bitmap.set pfn true }, pfn)
  | none => ({ frames := pfs.frames ++ [EMPTY_PAGE],
               allocation_bitmap := pfs.allocation_bitmap ++ [true] },
             pfs.frames.length)

/-- `PageFrames::deallocate`: zero the frame and clear its bit.  The Rust
code first asserts the bit was set; theorems invoking `deallocate`
establish that assertion from well-formedness. -/
def PageFrames.deallocate (pfs : PageFrames) (pfn : Nat) : PageFrames :=
  { frames := pfs.frames.set pfn EMPTY_PAGE,
    allocation_bitmap := pfs.allocation_bitmap.set pfn false }

/-- number of allocated frames (count of set bits of the bitmap). -/
def PageFrames.allocCount (pfs : PageFrames) : Nat :=
  pfs.allocation_bitmap.count true

/-- the mapping table: `BTreeMap<VA, (PFN, PageFlags)>`, modelled as a
key-sorted association list. -/
abbrev Mapping := List (Nat × (Nat × Nat))

/-- `BTreeMap::get` / `contains_key`: lookup by key. -/
def btreeLookup (l : Mapping) (k : Nat) : Option (Nat × Nat) :=
  match l with
  | [] => none
  | (k', v) :: rest => if k = k' then some v else btreeLookup rest k

/-- `BTreeMap::insert`: insert or replace, keeping keys sorted. -/
def btreeInsert (k : Nat) (v : Nat × Nat) : Mapping → Mapping
  | [] => [(k, v)]
  | (k', v') :: rest =>
    if k < k' then (k, v) :: (k', v') :: rest
    else if k = k' then (k, v) :: rest
    else (k', v') :: btreeInsert k v rest

/-- `BTreeMap::remove`: delete the entry with the given key (keys are
unique in a `BTreeMap`; on sorted duplicate-free lists this removes
exactly that entry). -/
def btreeErase (k : Nat) : Mapping → Mapping
  | [] => []
  | (k', v') :: rest => if k = k' then rest else (k', v') :: btreeErase k rest

/-- `struct MMU`: frame pool plus mapping table. -/
structure MMU where
  pages : PageFrames
  mapping : Mapping

/-- `MMU::default()`: empty MMU. -/
def MMU.empty : MMU := ⟨PageFrames.empty, []⟩

/-- frame update lifted to the MMU. -/
def MMU.setFrame (m : MMU) (pfn : Nat) (pf : PageFrame) : MMU :=
  { m with pages := m.pages.setFrame pfn pf }

/-- first index `i` in `[start, start + count)` (scanning upward, as the
Rust `for i in 0..page_count` loops do) satisfying `p`. -/
def firstIdxFrom (p : Nat → Bool) (start : Nat) : Nat → Option Nat
  | 0 => none
  | count + 1 => if p start then some start else firstIdxFrom p (start + 1) count

/-- the insertion loop of `MMU::mmap`: insert
`(addr + i * PAGE_SIZE) ↦ (INVALID_PFN, flags)` for `i in 0..count`,
in ascending order. -/
def mapPages (flags : Nat) (addr : Nat) (count : Nat) (mp : Mapping) : Mapping :=
  match count with
  | 0 => mp
  | c + 1 => mapPages flags (addr + PAGE_SIZE) c (btreeInsert addr (INVALID_PFN, flags) mp)

/-- `MMU::mmap`: two-phase — first check that no page of
`[addr, addr + size)` is mapped (returning `AddressAlreadyMapped` with
the first conflicting page and an unchanged state), then insert every
page as a lazy zero page `(INVALID_PFN, ZERO | perms)`.
Rust asserts (hypotheses of the theorems): `addr` and `size` page
aligned, `size / PAGE_SIZE <= u32::MAX`.  (`pages.reserve` only touches
capacity and has no observable effect.) -/
def MMU.mmap (m : MMU) (addr : Nat) (size : Nat) (perms : Nat) :
    MMU × Option MMUError :=
  let page_count := size / PAGE_SIZE
  match firstIdxFrom (fun i => (btreeLookup m.mapping (addr + i * PAGE_SIZE)).isSome)
      0 page_count with
  | some i => (m, some (.AddressAlreadyMapped (addr + i * PAGE_SIZE)))
  | none =>
    let flags := PageFlags.ZERO ||| PageFlags.from_bits_truncate perms
    ({ m with mapping := mapPages flags addr page_count m.mapping }, none)

/-- one iteration of the `MMU::munmap` removal loop: remove the entry at
`va`, returning its frame to the pool unless the page is flagged `ZERO`
(in which case Rust asserts `pfn == INVALID_PFN` and frees nothing).
The `unwrap` of `mapping.remove` cannot fail on the munmap success path;
the `none` branch is that unreachable panic. -/
def removeOnePage (m : MMU) (va : Nat) : MMU :=
  match btreeLookup m.mapping va with
  | none => m
  | some (pfn, flags) =>
    { pages := if ! PageFlags.intersects flags PageFlags.ZERO
               then m.pages.deallocate pfn else m.pages,
      mapping := btreeErase va m.mapping }

/-- the removal loop of `MMU::munmap` over `i in 0..count`. -/
def unmapPages (addr : Nat) (count : Nat) (m : MMU) : MMU :=
  match count with
  | 0 => m
  | c + 1 => unmapPages (addr + PAGE_SIZE) c (removeOnePage m addr)

/-- `MMU::munmap`: two-phase — first check that every page of
`[addr, addr + size)` is mapped (returning `AddressNotMapped` with the
first missing page and an unchanged state), then remove every entry,
returning non-`ZERO` entries' frames to the pool.
Rust asserts (hypotheses): `addr`, `size` page aligned,
`size / PAGE_SIZE <= u32::MAX`. -/
def MMU.munmap (m : MMU) (addr : Nat) (size : Nat) : MMU × Option MMUError :=
  let page_count := size / PAGE_SIZE
  match firstIdxFrom (fun i => (btreeLookup m.mapping (addr + i * PAGE_SIZE)).isNone)
      0 page_count with
  | some i => (m, some (.AddressNotMapped (addr + i * PAGE_SIZE)))
  | none => (unmapPages addr page_count m, none)

/-- `MMU::probe_read`: look up the page containing `addr`;
`AddressNotMapped` if absent, `AddressNotReadable` if `PERM_R` is unset.
Pure lookup, no mutation. -/
def MMU.probe_read (m : MMU) (addr : Nat) : Except MMUError (Nat × Nat) :=
  match btreeLookup m.mapping (page_number addr) with
  | none => .error (.AddressNotMapped addr)
  | some (pfn, flags) =>
    if ! PageFlags.intersects flags PageFlags.PERM_R then
      .error (.AddressNotReadable addr)
    else
      .ok (pfn, flags)

/-- bytes `[off, off + len)` of a frame, in address order
(`&frame[off .. off + len]`). -/
def readRange (pf : PageFrame) (off len : Nat) : List Nat :=
  (List.range len).map (fun i => pf (off + i))

/-- write `bytes` into a frame at offsets `[off, off + bytes.length)`
(`frame[off .. off + len].copy_from_slice(bytes)`). -/
def writeRange (pf : PageFrame) (off : Nat) (bytes : List Nat) : PageFrame :=
  fun i => if off ≤ i ∧ i < off + bytes.length then bytes.getD (i - off) 0 else pf i

/-- `MMU::read`: read `len` bytes starting at `addr`, returning the bytes
read (the Rust code fills a caller buffer of that length completely).
Rust asserts `len <= PAGE_SIZE` (hypothesis of the theorems).  When
`page_number(addr) != page_number(addr + len)` the access is split at
the next page boundary and each half is probed and resolved
independently; otherwise a single probe serves the whole access.  A
`ZERO` page contributes zero bytes without touching the pool; a backed
page contributes the matching range of its frame. -/
def MMU.read (m : MMU) (addr : Nat) (len : Nat) : Except MMUError (List Nat) :=
  if page_number addr ≠ page_number (addr + len) then
    let off := page_offset addr
    let first_size := PAGE_SIZE - off
    let second_size := len - first_size
    match m.probe_read addr with
    | .error e => .error e
    | .ok (first_pfn, first_flags) =>
      let part1 := if PageFlags.intersects first_flags PageFlags.ZERO
                   then List.replicate first_size 0
                   else readRange (m.pages.get first_pfn) off first_size
      match m.probe_read (addr + first_size) with
      | .error e => .error e
      | .ok (second_pfn, second_flags) =>
        let part2 := if PageFlags.intersects second_flags PageFlags.ZERO
                     then List.replicate second_size 0
                     else readRange (m.pages.get second_pfn) 0 second_size
        .ok (part1 ++ part2)
  else
    match m.probe_read addr with
    | .error e => .error e
    | .ok (pfn, flags) =>
      if PageFlags.intersects flags PageFlags.ZERO then
        .ok (List.replicate len 0)
      else
        .ok (readRange (m.pages.get pfn) (page_offset addr) len)

/-- little-endian decoding of a byte list (`LittleEndian::read_uN`). -/
def leDecode : List Nat → Nat
  | [] => 0
  | b :: rest => b + 256 * leDecode rest

/-- little-endian encoding of `v` into `w` bytes
(`LittleEndian::write_uN`). -/
def leEncode : Nat → Nat → List Nat
  | 0, _ => []
  | w + 1, v => v % 256 :: leEncode w (v / 256)

/-- generic typed reader: `MMU::read_uN` reads `w = N/8` bytes and
decodes them little-endian (`read_u8` returns `buf[0]`, which agrees
with 1-byte little-endian decoding). -/
def MMU.read_uint (m : MMU) (addr : Nat) (w : Nat) : Except MMUError Nat :=
  (m.read addr w).map leDecode

/-- `MMU::read_u8` -/
def MMU.read_u8 (m : MMU) (addr : Nat) : Except MMUError Nat := m.read_uint addr 1
/-- `MMU::read_u16` -/
def MMU.read_u16 (m : MMU) (addr : Nat) : Except MMUError Nat := m.read_uint addr 2
/-- `MMU::read_u32` -/
def MMU.read_u32 (m : MMU) (addr : Nat) : Except MMUError Nat := m.read_uint addr 4
/-- `MMU::read_u64` -/
def MMU.read_u64 (m : MMU) (addr : Nat) : Except MMUError Nat := m.read_uint addr 8
/-- `MMU::read_u128` -/
def MMU.read_u128 (m : MMU) (addr : Nat) : Except MMUError Nat := m.read_uint addr 16

/-- `MMU::read_page`: one full page from a page-aligned address (the
alignment assert is a hypothesis of the theorems). -/
def MMU.read_page (m : MMU) (addr : Nat) : Except MMUError (List Nat) :=
  m.read addr PAGE_SIZE

/-- `MMU::probe_write`: look up the page containing `addr`
(`AddressNotMapped` / `AddressNotWritable` as for `probe_read` but with
`PERM_W`).  If the page is `ZERO` or `COW`, materialize: snapshot the
logical contents (all-zero for `ZERO`, the existing frame for `COW`),
allocate a new frame, write the snapshot into it, and update the mapping
entry in place to the new Nat with `ZERO` and `COW` cleared.  Returns
the updated state together with the entry. -/
def MMU.probe_write (m : MMU) (addr : Nat) : Except MMUError (MMU × Nat × Nat) :=
  match btreeLookup m.mapping (page_number addr) with
  | none => .error (.AddressNotMapped addr)
  | some (pfn, flags) =>
    if ! PageFlags.intersects flags PageFlags.PERM_W then
      .error (.AddressNotWritable addr)
    else if PageFlags.intersects flags PageFlags.ZERO
         || PageFlags.intersects flags PageFlags.COW then
      let pf := if PageFlags.intersects flags PageFlags.ZERO
                then EMPTY_PAGE else m.pages.get pfn
      let alloc := m.pages.allocate
      let flags' := PageFlags.removeFlag (PageFlags.removeFlag flags PageFlags.ZERO)
                      PageFlags.COW
      .ok ({ pages := (alloc.1.setFrame alloc.2 pf),
             mapping := btreeInsert (page_number addr) (alloc.2, flags') m.mapping },
           alloc.2, flags')
    else
      .ok (m, pfn, flags)

/-- `MMU::write`: write `buf` starting at `addr` (Rust asserts
`buf.len() <= PAGE_SIZE`).  Mirrors the read path's single/split
structure, except each probe may materialize.  Returns the updated state
together with `none` on success or the fault; on a split write whose
second probe faults, the first half has already been materialized and
written (the returned state reflects that partial effect). -/
def MMU.write (m : MMU) (addr : Nat) (buf : List Nat) : MMU × Option MMUError :=
  if page_number addr ≠ page_number (addr + buf.length) then
    let off := page_offset addr
    let first_size := PAGE_SIZE - off
    match m.probe_write addr with
    | .error e => (m, some e)
    | .ok (m1, first_pfn, _) =>
      let m2 := m1.setFrame first_pfn
                  (writeRange (m1.pages.get first_pfn) off (buf.take first_size))
      match m2.probe_write (addr + first_size) with
      | .error e => (m2, some e)
      | .ok (m3, second_pfn, _) =>
        (m3.setFrame second_pfn
          (writeRange (m3.pages.get second_pfn) 0 (buf.drop first_size)), none)
  else
    match m.probe_write addr with
    | .error e => (m, some e)
    | .ok (m1, pfn, _) =>
      (m1.setFrame pfn (writeRange (m1.pages.get pfn) (page_offset addr) buf), none)

/-- generic typed writer: `MMU::write_uN` writes the `w = N/8`
little-endian bytes of `v` (`write_u8` writes `[value]`, which agrees
with 1-byte little-endian encoding since `value < 256` as a `u8`). -/
def MMU.write_uint (m : MMU) (addr : Nat) (w v : Nat) : MMU × Option MMUError :=
  m.write addr (leEncode w v)

/-- `MMU::write_u8` -/
def MMU.write_u8 (m : MMU) (addr : Nat) (v : Nat) : MMU × Option MMUError :=
  m.write_uint addr 1 v
/-- `MMU::write_u16` -/
def MMU.write_u16 (m : MMU) (addr : Nat) (v : Nat) : MMU × Option MMUError :=
  m.write_uint addr 2 v
/-- `MMU::write_u32` -/
def MMU.write_u32 (m : MMU) (addr : Nat) (v : Nat) : MMU × Option MMUError :=
  m.write_uint addr 4 v
/-- `MMU::write_u64` -/
def MMU.write_u64 (m : MMU) (addr : Nat) (v : Nat) : MMU × Option MMUError :=
  m.write_uint addr 8 v
/-- `MMU::write_u128` -/
def MMU.write_u128 (m : MMU) (addr : Nat) (v : Nat) : MMU × Option MMUError :=
  m.write_uint addr 16 v

/-- `MMU::write_page`: write one full page at a page-aligned address
(the alignment and length asserts are hypotheses of the theorems). -/
def MMU.write_page (m : MMU) (addr : Nat) (value : List Nat) : MMU × Option MMUError :=
  m.write addr value

/-- the logical byte visible at virtual address `a`: `0` for a `ZERO`
page, the owning frame's byte otherwise (meaningless — defaulted to `0`
— on unmapped addresses). -/
def MMU.byteAt (m : MMU) (a : Nat) : Nat :=
  match btreeLookup m.mapping (page_number a) with
  | none => 0
  | some (pfn, flags) =>
    if PageFlags.intersects flags PageFlags.ZERO then 0
    else m.pages.get pfn (page_offset a)

/-- the flags of a page after `probe_write` materialization: `ZERO` and
`COW` removed (the two `flags.remove` calls of mmu.rs). -/
def PageFlags.materialize (fl : Nat) : Nat :=
  PageFlags.removeFlag (PageFlags.removeFlag fl PageFlags.ZERO) PageFlags.COW

/-- the mapping's keys are strictly increasing (`BTreeMap` ordering). -/
def MapSorted (l : Mapping) : Prop := List.Pairwise (fun a b => a.1 < b.1) l

/-- frame-pool well-formedness: the frame vector and the allocation
bitmap have equal length, and unallocated frames are zero (freshly
created and freed frames are zeroed; only allocated frames are ever
written). -/
def PageFrames.WFpool (p : PageFrames) : Prop :=
  p.frames.length = p.allocation_bitmap.length ∧
  ∀ i, i < p.frames.length → p.allocation_bitmap.getD i false = false →
    ∀ j, p.get i j = 0

/-- MMU well-formedness, the inductive invariant of all states reachable
from `MMU.empty` through the public operations: lengths agree, the
mapping is sorted, every entry has in-range flags with `COW` clear
(nothing in this core ever produces a `COW` page), `ZERO` entries carry
the `INVALID_PFN` sentinel, non-`ZERO` entries own an allocated in-range
frame, and no two frame-owning entries share a Nat. -/
def MMU.WF (m : MMU) : Prop :=
  m.pages.frames.length = m.pages.allocation_bitmap.length ∧
  MapSorted m.mapping ∧
  (∀ e ∈ m.mapping,
    e.2.2 < 32 ∧
    PageFlags.intersects e.2.2 PageFlags.COW = false ∧
    (PageFlags.intersects e.2.2 PageFlags.ZERO = true → e.2.1 = INVALID_PFN) ∧
    (PageFlags.intersects e.2.2 PageFlags.ZERO = false →
      e.2.1 < m.pages.frames.length ∧
      m.pages.allocation_bitmap.getD e.2.1 false = true)) ∧
  m.mapping.Pairwise (fun e e' =>
    PageFlags.intersects e.2.2 PageFlags.ZERO = false →
    PageFlags.intersects e'.2.2 PageFlags.ZERO = false → e.2.1 ≠ e'.2.1)

/-- the invariant exactly as claimed: `ZERO` entries carry the sentinel;
frame-owning entries (neither `ZERO` nor `COW`) index an allocated pool
slot shared with no other frame-owning entry; the frame vector and the
allocation bitmap have equal length. -/
def MMU.Inv (m : MMU) : Prop :=
  (∀ e ∈ m.mapping,
    PageFlags.intersects e.2.2 PageFlags.ZERO = true → e.2.1 = INVALID_PFN) ∧
  (∀ e ∈ m.mapping,
    PageFlags.intersects e.2.2 PageFlags.ZERO = false →
    PageFlags.intersects e.2.2 PageFlags.COW = false →
      e.2.1 < m.pages.frames.length ∧
      m.pages.allocation_bitmap.getD e.2.1 false = true ∧
      (∀ e' ∈ m.mapping, e' ≠ e →
        PageFlags.intersects e'.2.2 PageFlags.ZERO = false →
        PageFlags.intersects e'.2.2 PageFlags.COW = false → e'.2.1 ≠ e.2.1)) ∧
  m.pages.frames.length = m.pages.allocation_bitmap.length

/-- the states reachable from the empty MMU through the public mutating
operations (`mmap`, `munmap`, and the writes, all of which go through
`MMU.write`; the read operations take `&self` and return no state).
Each constructor carries the operation's `assert!` preconditions —
page-aligned addresses and sizes, `page_count`/buffer-length bounds, and
the `Nat` type's 3-bit range — since a panicking call never
returns a state. -/
inductive Reachable : MMU → Prop where
  | empty : Reachable MMU.empty
  | mmap (m : MMU) (addr size : Nat) (perms : Nat) :
      Reachable m → is_page_aligned addr = true → is_page_aligned size = true →
      size / PAGE_SIZE ≤ 4294967295 → perms < 8 →
      Reachable (m.mmap addr size perms).1
  | munmap (m : MMU) (addr size : Nat) :
      Reachable m → is_page_aligned addr = true → is_page_aligned size = true →
      size / PAGE_SIZE ≤ 4294967295 →
      Reachable (m.munmap addr size).1
  | write (m : MMU) (addr : Nat) (buf : List Nat) :
      Reachable m → buf.length ≤ PAGE_SIZE →
      Reachable (m.write addr buf).1

/-- writing a byte list one `write_u8` at a time at consecutive
addresses, stopping at the first fault (the comparison object of the
split-boundary equivalence property). -/
def writeBytes (m : MMU) (addr : Nat) : List Nat → MMU × Option MMUError
  | [] => (m, none)
  | b :: rest =>
    let r := m.write_u8 addr b
    match r.2 with
    | none => writeBytes r.1 (addr + 1) rest
    | some e => (r.1, some e)

/-- `MMU.WF` only inspects the mapping list, the bitmap and the lengths
(never the frame contents), so it is decidable and concrete states can
be checked by evaluation. -/
instance (m : MMU) : Decidable m.WF := by
  unfold MMU.WF MapSorted
  infer_instance

/-! ## Page arithmetic -/

theorem PAGE_SIZE_eq : PAGE_SIZE = 4096 := rfl

theorem page_number_eq_div (va : Nat) : page_number va = va / PAGE_SIZE * PAGE_SIZE := by
  show (va >>> 12) <<< 12 = va / PAGE_SIZE * PAGE_SIZE
  rw [Nat.shiftRight_eq_div_pow, Nat.shiftLeft_eq, PAGE_SIZE_eq]

theorem page_offset_eq_mod (va : Nat) : page_offset va = va % PAGE_SIZE := by
  show va &&& 4095 = va % PAGE_SIZE
  have h := Nat.and_pow_two_sub_one_eq_mod va 12
  rw [PAGE_SIZE_eq]
  norm_num at h ⊢
  exact h

theorem is_page_aligned_iff (va : Nat) :
    is_page_aligned va = true ↔ va % PAGE_SIZE = 0 := by
  show (va &&& 4095 == 0) = true ↔ va % PAGE_SIZE = 0
  have h := Nat.and_pow_two_sub_one_eq_mod va 12
  norm_num at h
  rw [h, beq_iff_eq, PAGE_SIZE_eq]

theorem page_offset_lt (va : Nat) : page_offset va < PAGE_SIZE := by
  rw [page_offset_eq_mod]
  exact Nat.mod_lt _ (by rw [PAGE_SIZE_eq]; omega)

theorem page_number_add_offset (va : Nat) : page_number va + page_offset va = va := by
  rw [page_number_eq_div, page_offset_eq_mod, PAGE_SIZE_eq]
  omega

theorem page_number_mod (va : Nat) : page_number va % PAGE_SIZE = 0 := by
  rw [page_number_eq_div, PAGE_SIZE_eq]
  omega

/-- `page_number` of an in-page displacement from an aligned base. -/
theorem page_number_aligned_add (p j : Nat) (hp : p % PAGE_SIZE = 0)
    (hj : j < PAGE_SIZE) : page_number (p + j) = p := by
  rw [page_number_eq_div, PAGE_SIZE_eq] at *
  omega

theorem page_offset_aligned_add (p j : Nat) (hp : p % PAGE_SIZE = 0)
    (hj : j < PAGE_SIZE) : page_offset (p + j) = j := by
  rw [page_offset_eq_mod, PAGE_SIZE_eq] at *
  omega

/-- the code's split condition, in offset form. -/
theorem split_iff (addr len : Nat) :
    page_number addr ≠ page_number (addr + len) ↔
      PAGE_SIZE ≤ page_offset addr + len := by
  rw [page_number_eq_div, page_number_eq_div, page_offset_eq_mod, PAGE_SIZE_eq]
  omega

/-- the second probed address of a split access is the next page. -/
theorem next_page_eq (addr : Nat) :
    addr + (PAGE_SIZE - page_offset addr) = page_number addr + PAGE_SIZE := by
  rw [page_number_eq_div, page_offset_eq_mod, PAGE_SIZE_eq]
  omega

/-! ## Flag arithmetic (all flag values are below `2^5`) -/

theorem materialize_zero_clear :
    ∀ fl < 32, PageFlags.intersects (PageFlags.materialize fl) PageFlags.ZERO = false := by
  decide

theorem materialize_cow_clear :
    ∀ fl < 32, PageFlags.intersects (PageFlags.materialize fl) PageFlags.COW = false := by
  decide

theorem materialize_perm_r :
    ∀ fl < 32, PageFlags.intersects (PageFlags.materialize fl) PageFlags.PERM_R
      = PageFlags.intersects fl PageFlags.PERM_R := by
  decide

theorem materialize_perm_w :
    ∀ fl < 32, PageFlags.intersects (PageFlags.materialize fl) PageFlags.PERM_W
      = PageFlags.intersects fl PageFlags.PERM_W := by
  decide

theorem materialize_perm_bits :
    ∀ fl < 32, PageFlags.materialize fl &&& 7 = fl &&& 7 := by
  decide

theorem materialize_lt : ∀ fl < 32, PageFlags.materialize fl < 32 := by
  decide

theorem materialize_of_not_zc :
    ∀ fl < 32, PageFlags.intersects fl PageFlags.ZERO = false →
      PageFlags.intersects fl PageFlags.COW = false →
      PageFlags.materialize fl = fl := by
  decide

theorem mmap_flags_facts :
    ∀ p < 32, PageFlags.intersects (PageFlags.ZERO ||| p) PageFlags.ZERO = true ∧
      (PageFlags.ZERO ||| p) < 32 := by
  decide

theorem mmap_flags_cow :
    ∀ p < 8, PageFlags.intersects (PageFlags.ZERO ||| p) PageFlags.COW = false := by
  decide

theorem truncate_lt (v : Nat) : PageFlags.from_bits_truncate v < 32 :=
  Nat.lt_succ_of_le (Nat.and_le_right)

theorem truncate_of_lt : ∀ v < 8, PageFlags.from_bits_truncate v = v := by
  decide

/-! ## Association-list (`BTreeMap`) lemmas -/

theorem btreeInsert_front (k : Nat) (v v0 : Nat × Nat) (k0 : Nat)
    (rest : Mapping) (h1 : k < k0) :
    btreeInsert k v ((k0, v0) :: rest) = (k, v) :: (k0, v0) :: rest := by
  simp [btreeInsert, h1]

theorem btreeInsert_replace (k : Nat) (v v0 : Nat × Nat) (rest : Mapping) :
    btreeInsert k v ((k, v0) :: rest) = (k, v) :: rest := by
  simp [btreeInsert]

theorem btreeInsert_skip (k : Nat) (v v0 : Nat × Nat) (k0 : Nat)
    (rest : Mapping) (h1 : k0 < k) :
    btreeInsert k v ((k0, v0) :: rest) = (k0, v0) :: btreeInsert k v rest := by
  have hlt : ¬ k < k0 := by omega
  have hne : ¬ k = k0 := by omega
  simp [btreeInsert, hlt, hne]

theorem btreeLookup_insert (k : Nat) (v : Nat × Nat) (l : Mapping) (k' : Nat) :
    btreeLookup (btreeInsert k v l) k' =
      if k' = k then some v else btreeLookup l k' := by
  induction l with
  | nil =>
    by_cases h : k' = k <;> simp [btreeInsert, btreeLookup, h]
  | cons e rest ih =>
    obtain ⟨k0, v0⟩ := e
    rcases Nat.lt_trichotomy k k0 with h1 | h1 | h1
    · rw [btreeInsert_front k v v0 k0 rest h1]
      by_cases h : k' = k <;> simp [btreeLookup, h]
    · subst h1
      rw [btreeInsert_replace]
      by_cases h : k' = k <;> simp [btreeLookup, h]
    · rw [btreeInsert_skip k v v0 k0 rest h1]
      by_cases h3 : k' = k0
      · subst h3
        have hne : ¬ k' = k := by omega
        simp [btreeLookup, hne]
      · simp [btreeLookup, h3, ih]

theorem btreeLookup_erase_ne (k : Nat) (l : Mapping) (k' : Nat) (h : k' ≠ k) :
    btreeLookup (btreeErase k l) k' = btreeLookup l k' := by
  induction l with
  | nil => simp [btreeErase, btreeLookup]
  | cons e rest ih =>
    obtain ⟨k0, v0⟩ := e
    by_cases h1 : k = k0
    · subst h1
      simp [btreeErase, btreeLookup, h]
    · by_cases h2 : k' = k0 <;> simp [btreeErase, btreeLookup, h1, h2, ih]

theorem btreeLookup_eq_none_of_forall (l : Mapping) (k : Nat)
    (h : ∀ e ∈ l, e.1 ≠ k) : btreeLookup l k = none := by
  induction l with
  | nil => rfl
  | cons e rest ih =>
    have hk : k ≠ e.1 := fun hc => h e (by simp) hc.symm
    obtain ⟨k0, v0⟩ := e
    simp only [btreeLookup, if_neg hk]
    exact ih fun e' he' => h e' (by simp [he'])

theorem btreeLookup_erase_self (k : Nat) (l : Mapping) (hs : MapSorted l) :
    btreeLookup (btreeErase k l) k = none := by
  induction l with
  | nil => rfl
  | cons e rest ih =>
    obtain ⟨k0, v0⟩ := e
    rw [MapSorted, List.pairwise_cons] at hs
    by_cases h1 : k = k0
    · subst h1
      simp only [btreeErase, if_pos rfl]
      exact btreeLookup_eq_none_of_forall _ _ fun e' he' =>
        Nat.ne_of_gt (hs.1 e' he')
    · simp only [btreeErase, if_neg h1, btreeLookup, if_neg h1]
      exact ih hs.2

theorem btreeLookup_mem {l : Mapping} {k : Nat} {v : Nat × Nat}
    (h : btreeLookup l k = some v) : (k, v) ∈ l := by
  induction l with
  | nil => simp [btreeLookup] at h
  | cons e rest ih =>
    obtain ⟨k0, v0⟩ := e
    by_cases h1 : k = k0
    · subst h1
      have he : btreeLookup ((k, v0) :: rest) k = some v0 := by simp [btreeLookup]
      rw [he] at h
      simp only [Option.some.injEq] at h
      subst h
      exact List.mem_cons_self _ _
    · have he : btreeLookup ((k0, v0) :: rest) k = btreeLookup rest k := by
        simp [btreeLookup, h1]
      rw [he] at h
      exact List.mem_cons_of_mem _ (ih h)

theorem btreeInsert_mem_strong (k : Nat) (v : Nat × Nat) (l : Mapping)
    (e : Nat × (Nat × Nat)) (h : e ∈ btreeInsert k v l) :
    e = (k, v) ∨ e ∈ l := by
  induction l with
  | nil =>
    have he : btreeInsert k v ([] : Mapping) = [(k, v)] := rfl
    rw [he, List.mem_singleton] at h
    exact Or.inl h
  | cons e0 rest ih =>
    obtain ⟨k0, v0⟩ := e0
    rcases Nat.lt_trichotomy k k0 with h1 | h1 | h1
    · rw [btreeInsert_front k v v0 k0 rest h1, List.mem_cons] at h
      rcases h with h | h
      · exact Or.inl h
      · exact Or.inr h
    · subst h1
      rw [btreeInsert_replace, List.mem_cons] at h
      rcases h with h | h
      · exact Or.inl h
      · exact Or.inr (List.mem_cons_of_mem _ h)
    · rw [btreeInsert_skip k v v0 k0 rest h1, List.mem_cons] at h
      rcases h with h | h
      · exact Or.inr (by rw [h]; exact List.mem_cons_self _ _)
      · rcases ih h with h' | h'
        · exact Or.inl h'
        · exact Or.inr (List.mem_cons_of_mem _ h')

theorem btreeInsert_mem (k : Nat) (v : Nat × Nat) (l : Mapping)
    (e : Nat × (Nat × Nat)) (h : e ∈ btreeInsert k v l) :
    e.1 = k ∨ e ∈ l := by
  rcases btreeInsert_mem_strong k v l e h with h' | h'
  · exact Or.inl (by rw [h'])
  · exact Or.inr h'

theorem btreeInsert_pairwise {R : Nat × (Nat × Nat) → Nat × (Nat × Nat) → Prop}
    (k : Nat) (v : Nat × Nat) (l : Mapping)
    (hR : ∀ e ∈ l, R (k, v) e ∧ R e (k, v)) (hl : l.Pairwise R) :
    (btreeInsert k v l).Pairwise R := by
  induction l with
  | nil => simp [btreeInsert]
  | cons e0 rest ih =>
    obtain ⟨k0, v0⟩ := e0
    rw [List.pairwise_cons] at hl
    rcases Nat.lt_trichotomy k k0 with h1 | h1 | h1
    · rw [btreeInsert_front k v v0 k0 rest h1, List.pairwise_cons, List.pairwise_cons]
      exact ⟨fun e he => (hR e he).1, hl⟩
    · subst h1
      rw [btreeInsert_replace, List.pairwise_cons]
      exact ⟨fun e he => (hR e (List.mem_cons_of_mem _ he)).1, hl.2⟩
    · rw [btreeInsert_skip k v v0 k0 rest h1, List.pairwise_cons]
      constructor
      · intro e he
        rcases btreeInsert_mem_strong k v rest e he with h' | h'
        · rw [h']
          exact (hR _ (List.mem_cons_self _ _)).2
        · exact hl.1 e h'
      · exact ih (fun e he => hR e (List.mem_cons_of_mem _ he)) hl.2

theorem btreeInsert_sorted (k : Nat) (v : Nat × Nat) (l : Mapping)
    (hs : MapSorted l) : MapSorted (btreeInsert k v l) := by
  induction l with
  | nil => simp [btreeInsert, MapSorted]
  | cons e rest ih =>
    obtain ⟨k0, v0⟩ := e
    rw [MapSorted, List.pairwise_cons] at hs
    rcases Nat.lt_trichotomy k k0 with h1 | h1 | h1
    · rw [MapSorted, btreeInsert_front k v v0 k0 rest h1, List.pairwise_cons,
        List.pairwise_cons]
      refine ⟨?_, hs.1, hs.2⟩
      intro e' he'
      rcases List.mem_cons.mp he' with h | h
      · rw [h]; exact h1
      · exact Nat.lt_trans h1 (hs.1 e' h)
    · subst h1
      rw [MapSorted, btreeInsert_replace, List.pairwise_cons]
      exact hs
    · rw [MapSorted, btreeInsert_skip k v v0 k0 rest h1, List.pairwise_cons]
      constructor
      · intro e' he'
        rcases btreeInsert_mem k v rest e' he' with h | h
        · rw [h]; exact h1
        · exact hs.1 e' h
      · exact ih hs.2

theorem btreeErase_sublist (k : Nat) (l : Mapping) : (btreeErase k l).Sublist l := by
  induction l with
  | nil => simp [btreeErase]
  | cons e rest ih =>
    obtain ⟨k0, v0⟩ := e
    by_cases h1 : k = k0
    · simp only [btreeErase, if_pos h1]
      exact List.sublist_cons_self _ _
    · simp only [btreeErase, if_neg h1]
      exact ih.cons₂ _

theorem btreeErase_sorted (k : Nat) (l : Mapping) (hs : MapSorted l) :
    MapSorted (btreeErase k l) :=
  hs.sublist (btreeErase_sublist k l)

/-! ## `List.getD` / `List.set` helpers -/

theorem getD_set_eq {α : Type} (l : List α) (i : Nat) (a d : α) (h : i < l.length) :
    (l.set i a).getD i d = a := by
  rw [List.getD_eq_getElem?_getD, List.getElem?_set_self (by simpa using h)]
  rfl

theorem getD_set_ne {α : Type} (l : List α) (i j : Nat) (a d : α) (h : j ≠ i) :
    (l.set i a).getD j d = l.getD j d := by
  rw [List.getD_eq_getElem?_getD, List.getElem?_set_ne (by omega),
    ← List.getD_eq_getElem?_getD]

theorem getD_oob {α : Type} (l : List α) (i : Nat) (d : α) (h : l.length ≤ i) :
    l.getD i d = d := by
  rw [List.getD_eq_getElem?_getD, List.getElem?_eq_none (by omega)]
  rfl

theorem getD_append_last {α : Type} (l : List α) (a d : α) :
    (l ++ [a]).getD l.length d = a := by
  rw [List.getD_eq_getElem?_getD, List.getElem?_append_right (Nat.le_refl _)]
  simp

theorem getD_append_lt {α : Type} (l : List α) (i : Nat) (a d : α) (h : i < l.length) :
    (l ++ [a]).getD i d = l.getD i d := by
  rw [List.getD_eq_getElem?_getD, List.getElem?_append, if_pos h,
    ← List.getD_eq_getElem?_getD]

theorem count_true_set_true (l : List Bool) (i : Nat) (h : i < l.length)
    (hf : l.getD i false = false) :
    (l.set i true).count true = l.count true + 1 := by
  induction l generalizing i with
  | nil => simp at h
  | cons b rest ih =>
    cases i with
    | zero =>
      have hb : b = false := by simpa using hf
      subst hb
      simp [List.count_cons]
    | succ i =>
      have h' : i < rest.length := by simpa using h
      have hf' : rest.getD i false = false := by simpa using hf
      simp only [List.set_cons_succ, List.count_cons, ih i h' hf']
      omega

theorem count_true_set_false_le (l : List Bool) (i : Nat) :
    (l.set i false).count true ≤ l.count true := by
  induction l generalizing i with
  | nil => simp
  | cons b rest ih =>
    cases i with
    | zero => simp [List.count_cons]
    | succ i =>
      simp only [List.set_cons_succ, List.count_cons]
      have := ih i
      omega

/-! ## Frame-pool lemmas -/

theorem setFrame_spec (p : PageFrames) (pfn : Nat) (pf : PageFrame) :
    (p.setFrame pfn pf).frames.length = p.frames.length ∧
    (p.setFrame pfn pf).allocation_bitmap = p.allocation_bitmap ∧
    (p.setFrame pfn pf).allocCount = p.allocCount ∧
    (pfn < p.frames.length → (p.setFrame pfn pf).get pfn = pf) ∧
    (∀ q, q ≠ pfn → (p.setFrame pfn pf).get q = p.get q) := by
  refine ⟨by simp [PageFrames.setFrame], rfl, rfl, ?_, ?_⟩
  · intro h
    exact getD_set_eq _ _ _ _ h
  · intro q hq
    exact getD_set_ne _ _ _ _ _ hq

theorem allocate_spec (p : PageFrames)
    (hlen : p.frames.length = p.allocation_bitmap.length)
    (p' : PageFrames) (pfn : Nat) (h : p.allocate = (p', pfn)) :
    p'.frames.length = p'.allocation_bitmap.length ∧
    p.frames.length ≤ p'.frames.length ∧
    pfn < p'.frames.length ∧
    p.allocation_bitmap.getD pfn false = false ∧
    p'.allocation_bitmap.getD pfn false = true ∧
    (∀ q, q ≠ pfn → p'.allocation_bitmap.getD q false = p.allocation_bitmap.getD q false) ∧
    (∀ q, q ≠ pfn → p'.get q = p.get q) ∧
    p'.allocCount = p.allocCount + 1 := by
  rw [PageFrames.allocate] at h
  rcases hcase : p.allocation_bitmap.findIdx? (fun b => !b) with _ | i
  · rw [hcase] at h
    cases h
    rw [List.findIdx?_eq_none_iff] at hcase
    have hbit : p.allocation_bitmap.getD p.frames.length false = false :=
      getD_oob _ _ _ (by omega)
    refine ⟨by simp [hlen], by simp, by simp, hbit, ?_, ?_, ?_, ?_⟩
    · show (p.allocation_bitmap ++ [true]).getD p.frames.length false = true
      rw [hlen]
      exact getD_append_last _ _ _
    · intro q hq
      show (p.allocation_bitmap ++ [true]).getD q false = p.allocation_bitmap.getD q false
      rcases Nat.lt_or_ge q p.allocation_bitmap.length with h' | h'
      · exact getD_append_lt _ _ _ _ h'
      · rw [getD_oob _ _ _ h', getD_oob]
        simp
        omega
    · intro q hq
      show (p.frames ++ [EMPTY_PAGE]).getD q EMPTY_PAGE = p.frames.getD q EMPTY_PAGE
      rcases Nat.lt_or_ge q p.frames.length with h' | h'
      · exact getD_append_lt _ _ _ _ h'
      · rw [getD_oob _ _ _ h', getD_oob]
        simp
        omega
    · show (p.allocation_bitmap ++ [true]).count true = p.allocation_bitmap.count true + 1
      rw [List.count_append]
      simp
  · rw [hcase] at h
    cases h
    rw [List.findIdx?_eq_some_iff_getElem] at hcase
    obtain ⟨hi, hpi, _⟩ := hcase
    have hfalse : p.allocation_bitmap.getD pfn false = false := by
      have he : p.allocation_bitmap.getD pfn false = p.allocation_bitmap[pfn] := by
        simp [List.getD_eq_getElem?_getD, List.getElem?_eq_getElem hi]
      rw [he]
      simpa using hpi
    refine ⟨by simp [hlen], by simp, by simp; omega, hfalse, ?_, ?_, fun q hq => rfl, ?_⟩
    · show (p.allocation_bitmap.set pfn true).getD pfn false = true
      exact getD_set_eq _ _ _ _ hi
    · intro q hq
      exact getD_set_ne _ _ _ _ _ hq
    · exact count_true_set_true _ _ hi hfalse

theorem deallocate_spec (p : PageFrames) (pfn : Nat) :
    (p.deallocate pfn).frames.length = p.frames.length ∧
    (p.deallocate pfn).allocation_bitmap.length = p.allocation_bitmap.length ∧
    (p.deallocate pfn).allocation_bitmap.getD pfn false = false ∧
    (∀ j, (p.deallocate pfn).get pfn j = 0) ∧
    (∀ q, q ≠ pfn → (p.deallocate pfn).allocation_bitmap.getD q false
      = p.allocation_bitmap.getD q false) ∧
    (∀ q, q ≠ pfn → (p.deallocate pfn).get q = p.get q) ∧
    (p.deallocate pfn).allocCount ≤ p.allocCount := by
  refine ⟨by simp [PageFrames.deallocate], by simp [PageFrames.deallocate], ?_, ?_, ?_, ?_, ?_⟩
  · rcases Nat.lt_or_ge pfn p.allocation_bitmap.length with h' | h'
    · exact getD_set_eq _ _ _ _ h'
    · exact getD_oob _ _ _ (by simpa [PageFrames.deallocate] using h')
  · intro j
    rcases Nat.lt_or_ge pfn p.frames.length with h' | h'
    · show (p.frames.set pfn EMPTY_PAGE).getD pfn EMPTY_PAGE j = 0
      rw [getD_set_eq _ _ _ _ h']
      rfl
    · show (p.frames.set pfn EMPTY_PAGE).getD pfn EMPTY_PAGE j = 0
      rw [getD_oob _ _ _ (by simpa using h')]
      rfl
  · intro q hq
    exact getD_set_ne _ _ _ _ _ hq
  · intro q hq
    exact getD_set_ne _ _ _ _ _ hq
  · exact count_true_set_false_le _ _

/-! ## Well-formedness helpers -/

theorem page_number_idem (va : Nat) : page_number (page_number va) = page_number va := by
  simp only [page_number_eq_div, PAGE_SIZE_eq]
  omega

theorem page_number_aligned (va : Nat) (h : va % PAGE_SIZE = 0) : page_number va = va := by
  simp only [page_number_eq_div, PAGE_SIZE_eq] at *
  omega

theorem WF_lookup {m : MMU} (hWF : m.WF) {P pfn fl : Nat}
    (h : btreeLookup m.mapping P = some (pfn, fl)) :
    fl < 32 ∧ PageFlags.intersects fl PageFlags.COW = false ∧
    (PageFlags.intersects fl PageFlags.ZERO = true → pfn = INVALID_PFN) ∧
    (PageFlags.intersects fl PageFlags.ZERO = false →
      pfn < m.pages.frames.length ∧
      m.pages.allocation_bitmap.getD pfn false = true) :=
  hWF.2.2.1 _ (btreeLookup_mem h)

theorem WF_distinct_pfn {m : MMU} (hWF : m.WF) {P Q pfn fl q flq : Nat}
    (hPQ : P ≠ Q)
    (h1 : btreeLookup m.mapping P = some (pfn, fl))
    (h2 : btreeLookup m.mapping Q = some (q, flq))
    (hz1 : PageFlags.intersects fl PageFlags.ZERO = false)
    (hz2 : PageFlags.intersects flq PageFlags.ZERO = false) :
    pfn ≠ q := by
  have hm1 := btreeLookup_mem h1
  have hm2 := btreeLookup_mem h2
  have hsym : Symmetric (fun (e e' : Nat × (Nat × Nat)) =>
      PageFlags.intersects e.2.2 PageFlags.ZERO = false →
      PageFlags.intersects e'.2.2 PageFlags.ZERO = false → e.2.1 ≠ e'.2.1) := by
    intro a b hab hb ha
    exact fun hc => (hab ha hb) hc.symm
  have hne : ((P, pfn, fl) : Nat × (Nat × Nat)) ≠ (Q, q, flq) := by
    intro hc
    exact hPQ (congrArg Prod.fst hc)
  exact List.Pairwise.forall hsym hWF.2.2.2 hm1 hm2 hne hz1 hz2

theorem WF_setFrame {m : MMU} (hWF : m.WF) (pfn : Nat) (pf : PageFrame) :
    (m.setFrame pfn pf).WF := by
  obtain ⟨h1, h2, h3, h4⟩ := hWF
  refine ⟨?_, h2, ?_, h4⟩
  · simpa [MMU.setFrame, PageFrames.setFrame] using h1
  · intro e he
    have := h3 e he
    simpa [MMU.setFrame, PageFrames.setFrame] using this

/-- updating the frame owned by the entry at page `P` changes the
logical bytes exactly inside page `P`. -/
theorem byteAt_setFrame_owner {m : MMU} (hWF : m.WF) {P pfn fl : Nat}
    (hlk : btreeLookup m.mapping P = some (pfn, fl))
    (hz : PageFlags.intersects fl PageFlags.ZERO = false) (pf : PageFrame)
    (a : Nat) :
    (m.setFrame pfn pf).byteAt a =
      if page_number a = P then pf (page_offset a) else m.byteAt a := by
  have hpfn := (WF_lookup hWF hlk).2.2.2 hz
  have hmap : (m.setFrame pfn pf).mapping = m.mapping := rfl
  by_cases hp : page_number a = P
  · rw [if_pos hp]
    simp only [MMU.byteAt, hmap, hp, hlk, hz, Bool.false_eq_true, if_false]
    show (m.pages.setFrame pfn pf).get pfn (page_offset a) = pf (page_offset a)
    exact congrFun ((setFrame_spec m.pages pfn pf).2.2.2.1 hpfn.1) _
  · rw [if_neg hp]
    rcases hQ : btreeLookup m.mapping (page_number a) with _ | ⟨q, flq⟩
    · simp only [MMU.byteAt, hmap, hQ]
    · by_cases hzq : PageFlags.intersects flq PageFlags.ZERO = true
      · simp only [MMU.byteAt, hmap, hQ, hzq, if_true]
      · have hzq' : PageFlags.intersects flq PageFlags.ZERO = false := by
          simpa using hzq
        have hqne : q ≠ pfn := WF_distinct_pfn hWF hp hQ hlk hzq' hz
        simp only [MMU.byteAt, hmap, hQ, hzq', Bool.false_eq_true, if_false]
        show (m.pages.setFrame pfn pf).get q (page_offset a) = m.pages.get q (page_offset a)
        exact congrFun ((setFrame_spec m.pages pfn pf).2.2.2.2 q hqne) _

/-! ## Probe lemmas -/

theorem probe_read_not_mapped (m : MMU) (addr : Nat)
    (h : btreeLookup m.mapping (page_number addr) = none) :
    m.probe_read addr = .error (.AddressNotMapped addr) := by
  simp only [MMU.probe_read, h]

theorem probe_read_not_readable (m : MMU) (addr pfn fl : Nat)
    (h : btreeLookup m.mapping (page_number addr) = some (pfn, fl))
    (hR : PageFlags.intersects fl PageFlags.PERM_R = false) :
    m.probe_read addr = .error (.AddressNotReadable addr) := by
  simp only [MMU.probe_read, h, hR, Bool.not_false, if_true]

theorem probe_read_ok (m : MMU) (addr pfn fl : Nat)
    (h : btreeLookup m.mapping (page_number addr) = some (pfn, fl))
    (hR : PageFlags.intersects fl PageFlags.PERM_R = true) :
    m.probe_read addr = .ok (pfn, fl) := by
  simp only [MMU.probe_read, h, hR, Bool.not_true, Bool.false_eq_true, if_false]

theorem probe_write_not_mapped (m : MMU) (addr : Nat)
    (h : btreeLookup m.mapping (page_number addr) = none) :
    m.probe_write addr = .error (.AddressNotMapped addr) := by
  simp only [MMU.probe_write, h]

theorem probe_write_not_writable (m : MMU) (addr pfn fl : Nat)
    (h : btreeLookup m.mapping (page_number addr) = some (pfn, fl))
    (hW : PageFlags.intersects fl PageFlags.PERM_W = false) :
    m.probe_write addr = .error (.AddressNotWritable addr) := by
  simp only [MMU.probe_write, h, hW, Bool.not_false, if_true]

theorem probe_write_zc_eq (m : MMU) (addr pfn fl : Nat)
    (hlk : btreeLookup m.mapping (page_number addr) = some (pfn, fl))
    (hW : PageFlags.intersects fl PageFlags.PERM_W = true)
    (hzc : (PageFlags.intersects fl PageFlags.ZERO
            || PageFlags.intersects fl PageFlags.COW) = true) :
    m.probe_write addr = .ok
      ({ pages := (m.pages.allocate).1.setFrame (m.pages.allocate).2
            (if PageFlags.intersects fl PageFlags.ZERO then EMPTY_PAGE
             else m.pages.get pfn),
         mapping := btreeInsert (page_number addr)
            ((m.pages.allocate).2, PageFlags.materialize fl) m.mapping },
       (m.pages.allocate).2, PageFlags.materialize fl) := by
  simp only [MMU.probe_write, hlk, hW, Bool.not_true, Bool.false_eq_true, if_false,
    hzc, if_true]
  rfl

theorem probe_write_not_zc_eq (m : MMU) (addr pfn fl : Nat)
    (hlk : btreeLookup m.mapping (page_number addr) = some (pfn, fl))
    (hW : PageFlags.intersects fl PageFlags.PERM_W = true)
    (hzc : (PageFlags.intersects fl PageFlags.ZERO
            || PageFlags.intersects fl PageFlags.COW) = false) :
    m.probe_write addr = .ok (m, pfn, fl) := by
  simp only [MMU.probe_write, hlk, hW, Bool.not_true, Bool.false_eq_true, if_false,
    hzc]

/-- full behaviour of a successful `probe_write` on a well-formed state:
the returned entry, the mapping update, frame ownership of the result,
preservation of the logical bytes and of well-formedness, and the
allocation-count change. -/
theorem probe_write_spec (m : MMU) (addr pfn fl : Nat)
    (hWF : m.WF)
    (hlk : btreeLookup m.mapping (page_number addr) = some (pfn, fl))
    (hW : PageFlags.intersects fl PageFlags.PERM_W = true) :
    ∃ m' pfn',
      m.probe_write addr = .ok (m', pfn', PageFlags.materialize fl) ∧
      m'.WF ∧
      btreeLookup m'.mapping (page_number addr)
        = some (pfn', PageFlags.materialize fl) ∧
      (∀ k, k ≠ page_number addr →
        btreeLookup m'.mapping k = btreeLookup m.mapping k) ∧
      pfn' < m'.pages.frames.length ∧
      m'.pages.allocation_bitmap.getD pfn' false = true ∧
      (∀ j, m'.pages.get pfn' j =
        if PageFlags.intersects fl PageFlags.ZERO then 0 else m.pages.get pfn j) ∧
      (∀ a, m'.byteAt a = m.byteAt a) ∧
      m'.pages.allocCount = m.pages.allocCount +
        (if (PageFlags.intersects fl PageFlags.ZERO
             || PageFlags.intersects fl PageFlags.COW) = true then 1 else 0) ∧
      m.pages.frames.length ≤ m'.pages.frames.length ∧
      (∀ Q q flq, Q ≠ page_number addr →
        btreeLookup m.mapping Q = some (q, flq) →
        PageFlags.intersects flq PageFlags.ZERO = false →
        m'.pages.get q = m.pages.get q ∧ q ≠ pfn') := by
  obtain ⟨hfl32, hcow, _, hvalid⟩ := WF_lookup hWF hlk
  rcases hzc : (PageFlags.intersects fl PageFlags.ZERO
      || PageFlags.intersects fl PageFlags.COW) with _ | _
  · -- no materialization: the entry already owns a frame
    have hz : PageFlags.intersects fl PageFlags.ZERO = false := by
      rcases Bool.or_eq_false_iff.mp hzc with ⟨h1, _⟩
      exact h1
    have hmat : PageFlags.materialize fl = fl := materialize_of_not_zc fl hfl32 hz hcow
    refine ⟨m, pfn, ?_, hWF, ?_, fun k _ => rfl, (hvalid hz).1, (hvalid hz).2,
      ?_, fun a => rfl, ?_, Nat.le_refl _, ?_⟩
    · rw [probe_write_not_zc_eq m addr pfn fl hlk hW hzc, hmat]
    · rw [hmat, hlk]
    · intro j
      rw [hz]
      simp
    · simp
    · intro Q q flq hQne hQ hzq
      exact ⟨rfl, WF_distinct_pfn hWF hQne hQ hlk hzq hz⟩
  · -- materialization
    rcases halloc : m.pages.allocate with ⟨p1, pfnN⟩
    have asp := allocate_spec m.pages hWF.1 p1 pfnN halloc
    obtain ⟨alen, amono, apfnlt, aoldbit, anewbit, abitne, agetne, acount⟩ := asp
    set P := page_number addr with hP
    set matfl := PageFlags.materialize fl with hmatfl
    set pf0 : PageFrame := if PageFlags.intersects fl PageFlags.ZERO then EMPTY_PAGE
        else m.pages.get pfn with hpf0
    set m' : MMU := { pages := p1.setFrame pfnN pf0,
                      mapping := btreeInsert P (pfnN, matfl) m.mapping } with hm'
    have heq : m.probe_write addr = .ok (m', pfnN, matfl) := by
      rw [probe_write_zc_eq m addr pfn fl hlk hW hzc, halloc]
    have hmzc := materialize_zero_clear fl hfl32
    have hmcc := materialize_cow_clear fl hfl32
    have hmlt := materialize_lt fl hfl32
    have hsf := setFrame_spec p1 pfnN pf0
    have hlen' : m'.pages.frames.length = p1.frames.length := hsf.1
    have hbit' : m'.pages.allocation_bitmap = p1.allocation_bitmap := hsf.2.1
    -- a frame owned by any old non-ZERO entry is distinct from the fresh frame
    have hfresh : ∀ Q q flq, btreeLookup m.mapping Q = some (q, flq) →
        PageFlags.intersects flq PageFlags.ZERO = false → q ≠ pfnN := by
      intro Q q flq hQ hzq hc
      have := ((WF_lookup hWF hQ).2.2.2 hzq).2
      rw [hc, aoldbit] at this
      cases this
    have hgetq : ∀ Q q flq, btreeLookup m.mapping Q = some (q, flq) →
        PageFlags.intersects flq PageFlags.ZERO = false →
        m'.pages.get q = m.pages.get q := by
      intro Q q flq hQ hzq
      have hne := hfresh Q q flq hQ hzq
      calc m'.pages.get q = p1.get q := hsf.2.2.2.2 q hne
        _ = m.pages.get q := agetne q hne
    have hgetN : ∀ j, m'.pages.get pfnN j =
        if PageFlags.intersects fl PageFlags.ZERO then 0 else m.pages.get pfn j := by
      intro j
      have : m'.pages.get pfnN = pf0 := hsf.2.2.2.1 apfnlt
      rw [this, hpf0]
      by_cases hz : PageFlags.intersects fl PageFlags.ZERO = true
      · simp [hz, EMPTY_PAGE]
      · simp only [Bool.not_eq_true] at hz
        simp [hz]
    have hWF' : m'.WF := by
      refine ⟨?_, btreeInsert_sorted _ _ _ hWF.2.1, ?_, ?_⟩
      · rw [hlen', hbit', alen]
      · intro e he
        rcases btreeInsert_mem_strong _ _ _ _ he with he' | he'
        · rw [he']
          refine ⟨hmlt, hmcc, ?_, ?_⟩
          · intro hc
            rw [hmzc] at hc
            cases hc
          · intro _
            rw [hlen', hbit']
            exact ⟨apfnlt, anewbit⟩
        · obtain ⟨e1, e2, e3, e4⟩ := hWF.2.2.1 e he'
          refine ⟨e1, e2, e3, ?_⟩
          intro hz
          obtain ⟨g1, g2⟩ := e4 hz
          refine ⟨by omega, ?_⟩
          rw [hbit']
          have hne : e.2.1 ≠ pfnN := by
            intro hc
            rw [hc, aoldbit] at g2
            cases g2
          rw [abitne _ hne]
          exact g2
      · refine btreeInsert_pairwise _ _ _ ?_ hWF.2.2.2
        intro e he
        constructor
        · intro _ hze hc
          obtain ⟨_, g2⟩ := (hWF.2.2.1 e he).2.2.2 hze
          rw [← hc, aoldbit] at g2
          cases g2
        · intro hze _ hc
          obtain ⟨_, g2⟩ := (hWF.2.2.1 e he).2.2.2 hze
          rw [hc, aoldbit] at g2
          cases g2
    have hlkP : btreeLookup m'.mapping P = some (pfnN, matfl) := by
      rw [hm']
      show btreeLookup (btreeInsert P (pfnN, matfl) m.mapping) P = some (pfnN, matfl)
      rw [btreeLookup_insert, if_pos rfl]
    have hlkO : ∀ k, k ≠ P → btreeLookup m'.mapping k = btreeLookup m.mapping k := by
      intro k hk
      show btreeLookup (btreeInsert P (pfnN, matfl) m.mapping) k = btreeLookup m.mapping k
      rw [btreeLookup_insert, if_neg hk]
    refine ⟨m', pfnN, heq, hWF', hlkP, hlkO, by omega, by rw [hbit']; exact anewbit,
      hgetN, ?_, ?_, by omega, ?_⟩
    · -- logical bytes preserved
      intro a
      by_cases hp : page_number a = P
      · rw [MMU.byteAt, MMU.byteAt, hp, hlkP, hlk]
        simp only [hmzc, Bool.false_eq_true, if_false]
        rw [hgetN]
      · rw [MMU.byteAt, MMU.byteAt, hlkO _ hp]
        rcases hQ : btreeLookup m.mapping (page_number a) with _ | ⟨q, flq⟩
        · rfl
        · by_cases hzq : PageFlags.intersects flq PageFlags.ZERO = true
          · simp [hzq]
          · simp only [Bool.not_eq_true] at hzq
            simp only [hzq, Bool.false_eq_true, if_false]
            rw [hgetq _ _ _ hQ hzq]
    · -- allocation count
      have hc1 : m'.pages.allocCount = p1.allocCount := hsf.2.2.1
      simp only [if_pos rfl, if_true]
      omega
    · intro Q q flq hQne hQ hzq
      exact ⟨hgetq Q q flq hQ hzq, hfresh Q q flq hQ hzq⟩

/-! ## Read/write path -/

theorem page_decomp_within (addr i : Nat) (h : page_offset addr + i < PAGE_SIZE) :
    page_number (addr + i) = page_number addr ∧
    page_offset (addr + i) = page_offset addr + i := by
  simp only [page_number_eq_div, page_offset_eq_mod, PAGE_SIZE_eq] at *
  omega

theorem page_number_next (addr : Nat) :
    page_number (page_number addr + PAGE_SIZE) = page_number addr + PAGE_SIZE := by
  have h := page_number_mod addr
  apply page_number_aligned
  rw [PAGE_SIZE_eq] at *
  omega

theorem map_range_zero (len : Nat) (f : Nat → Nat) (h : ∀ i < len, f i = 0) :
    (List.range len).map f = List.replicate len 0 := by
  apply List.eq_replicate_iff.mpr
  refine ⟨by simp, ?_⟩
  intro b hb
  rw [List.mem_map] at hb
  obtain ⟨i, hi, rfl⟩ := hb
  exact h i (List.mem_range.mp hi)

/-- a successful `read` returns exactly the logical bytes of
`[addr, addr + len)`. -/
theorem read_spec (m : MMU) (addr len pfn1 fl1 : Nat)
    (hlen : len ≤ PAGE_SIZE)
    (h1 : btreeLookup m.mapping (page_number addr) = some (pfn1, fl1))
    (hR1 : PageFlags.intersects fl1 PageFlags.PERM_R = true)
    (h2 : ∀ pn2, page_number addr ≠ page_number (addr + len) →
      pn2 = page_number addr + PAGE_SIZE →
      ∃ pfn2 fl2, btreeLookup m.mapping pn2 = some (pfn2, fl2) ∧
        PageFlags.intersects fl2 PageFlags.PERM_R = true) :
    m.read addr len = .ok ((List.range len).map (fun i => m.byteAt (addr + i))) := by
  have hdaddr := page_number_add_offset addr
  have hoaddr := page_offset_lt addr
  by_cases hsp : page_number addr ≠ page_number (addr + len)
  · -- split read
    obtain ⟨pfn2, fl2, h2lk, hR2⟩ := h2 _ hsp rfl
    have hge := (split_iff addr len).mp hsp
    have hnext := next_page_eq addr
    have h2lk' : btreeLookup m.mapping
        (page_number (addr + (PAGE_SIZE - page_offset addr)))
        = some (pfn2, fl2) := by
      rw [hnext, page_number_next]
      exact h2lk
    rw [MMU.read, if_pos hsp]
    simp only [probe_read_ok m addr pfn1 fl1 h1 hR1,
      probe_read_ok m _ pfn2 fl2 h2lk' hR2]
    have hsplit : (List.range len).map (fun i => m.byteAt (addr + i)) =
        (List.range (PAGE_SIZE - page_offset addr)).map (fun i => m.byteAt (addr + i)) ++
        (List.range (len - (PAGE_SIZE - page_offset addr))).map
          (fun j => m.byteAt (addr + (PAGE_SIZE - page_offset addr) + j)) := by
      conv_lhs => rw [show len = (PAGE_SIZE - page_offset addr) +
        (len - (PAGE_SIZE - page_offset addr)) from by omega]
      rw [List.range_add, List.map_append, List.map_map]
      congr 1
      apply List.map_congr_left
      intro j _
      show m.byteAt (addr + ((PAGE_SIZE - page_offset addr) + j)) = _
      rw [← Nat.add_assoc]
    rw [hsplit]
    have hfirst : (List.range (PAGE_SIZE - page_offset addr)).map
        (fun i => m.byteAt (addr + i)) =
        (if PageFlags.intersects fl1 PageFlags.ZERO = true
         then List.replicate (PAGE_SIZE - page_offset addr) 0
         else readRange (m.pages.get pfn1) (page_offset addr)
           (PAGE_SIZE - page_offset addr)) := by
      have hbyte : ∀ i, i < PAGE_SIZE - page_offset addr →
          m.byteAt (addr + i) = if PageFlags.intersects fl1 PageFlags.ZERO = true
            then 0 else m.pages.get pfn1 (page_offset addr + i) := by
        intro i hi
        obtain ⟨hp, ho⟩ := page_decomp_within addr i (by omega)
        rw [MMU.byteAt, hp, h1, ho]
      by_cases hz : PageFlags.intersects fl1 PageFlags.ZERO = true
      · rw [if_pos hz]
        apply map_range_zero
        intro i hi
        rw [hbyte i hi, if_pos hz]
      · rw [if_neg hz, readRange]
        apply List.map_congr_left
        intro i hi
        rw [hbyte i (List.mem_range.mp hi), if_neg hz]
    have hsecond : (List.range (len - (PAGE_SIZE - page_offset addr))).map
        (fun j => m.byteAt (addr + (PAGE_SIZE - page_offset addr) + j)) =
        (if PageFlags.intersects fl2 PageFlags.ZERO = true
         then List.replicate (len - (PAGE_SIZE - page_offset addr)) 0
         else readRange (m.pages.get pfn2) 0 (len - (PAGE_SIZE - page_offset addr))) := by
      have hbyte : ∀ j, j < len - (PAGE_SIZE - page_offset addr) →
          m.byteAt (addr + (PAGE_SIZE - page_offset addr) + j) =
            if PageFlags.intersects fl2 PageFlags.ZERO = true
            then 0 else m.pages.get pfn2 j := by
        intro j hj
        have hmod := page_number_mod addr
        have hjlt : j < PAGE_SIZE := by omega
        have hp : page_number (page_number addr + PAGE_SIZE + j)
            = page_number addr + PAGE_SIZE := by
          apply page_number_aligned_add _ _ _ hjlt
          rw [PAGE_SIZE_eq] at *
          omega
        have ho : page_offset (page_number addr + PAGE_SIZE + j) = j := by
          apply page_offset_aligned_add _ _ _ hjlt
          rw [PAGE_SIZE_eq] at *
          omega
        rw [hnext, MMU.byteAt, hp, h2lk, ho]
      by_cases hz : PageFlags.intersects fl2 PageFlags.ZERO = true
      · rw [if_pos hz]
        apply map_range_zero
        intro j hj
        rw [hbyte j hj, if_pos hz]
      · rw [if_neg hz, readRange]
        apply List.map_congr_left
        intro j hj
        rw [hbyte j (List.mem_range.mp hj), if_neg hz]
        show m.pages.get pfn2 j = m.pages.get pfn2 (0 + j)
        rw [Nat.zero_add]
    rw [hfirst, hsecond]
  · -- single-page read
    rw [Ne, not_not] at hsp
    have hlt : page_offset addr + len < PAGE_SIZE ∨ len = 0 := by
      by_cases h0 : len = 0
      · exact Or.inr h0
      · left
        by_contra hc
        have := (split_iff addr len).mpr (by omega)
        rw [hsp] at this
        exact this rfl
    have hbyte : ∀ i, i < len →
        m.byteAt (addr + i) = if PageFlags.intersects fl1 PageFlags.ZERO = true
          then 0 else m.pages.get pfn1 (page_offset addr + i) := by
      intro i hi
      obtain ⟨hp, ho⟩ := page_decomp_within addr i (by omega)
      rw [MMU.byteAt, hp, h1, ho]
    rw [MMU.read, if_neg (by rw [hsp]; exact fun hc => hc rfl)]
    simp only [probe_read_ok m addr pfn1 fl1 h1 hR1]
    by_cases hz : PageFlags.intersects fl1 PageFlags.ZERO = true
    · rw [if_pos hz]
      congr 1
      symm
      apply map_range_zero
      intro i hi
      rw [hbyte i hi, if_pos hz]
    · rw [if_neg hz]
      congr 1
      rw [readRange]
      apply List.map_congr_left
      intro i hi
      rw [hbyte i (List.mem_range.mp hi), if_neg hz]

theorem getD_take (l : List Nat) (n i d : Nat) (h : i < n) :
    (l.take n).getD i d = l.getD i d := by
  rw [List.getD_eq_getElem?_getD, List.getElem?_take_of_lt h, ← List.getD_eq_getElem?_getD]

theorem getD_drop (l : List Nat) (n i d : Nat) :
    (l.drop n).getD i d = l.getD (n + i) d := by
  rw [List.getD_eq_getElem?_getD, List.getElem?_drop, ← List.getD_eq_getElem?_getD]

set_option maxHeartbeats 2000000 in
/-- full behaviour of a successful `write` on a well-formed state: it
succeeds, preserves well-formedness, replaces exactly the logical bytes
of `[addr, addr + buf.length)` with `buf`, keeps the mapped-page domain,
and changes flags at most by clearing `ZERO`/`COW` (materialization). -/
theorem write_spec (m : MMU) (addr : Nat) (buf : List Nat) (pfn1 fl1 : Nat)
    (hWF : m.WF) (hlen : buf.length ≤ PAGE_SIZE)
    (h1 : btreeLookup m.mapping (page_number addr) = some (pfn1, fl1))
    (hW1 : PageFlags.intersects fl1 PageFlags.PERM_W = true)
    (h2 : page_number addr ≠ page_number (addr + buf.length) →
      ∃ pfn2 fl2,
        btreeLookup m.mapping (page_number addr + PAGE_SIZE) = some (pfn2, fl2) ∧
        PageFlags.intersects fl2 PageFlags.PERM_W = true) :
    (m.write addr buf).2 = none ∧
    (m.write addr buf).1.WF ∧
    (∀ a, (m.write addr buf).1.byteAt a =
      if addr ≤ a ∧ a < addr + buf.length then buf.getD (a - addr) 0 else m.byteAt a) ∧
    (∀ k, (btreeLookup (m.write addr buf).1.mapping k).isSome
      = (btreeLookup m.mapping k).isSome) ∧
    (∀ k pfn' fl', btreeLookup (m.write addr buf).1.mapping k = some (pfn', fl') →
      ∃ pfn fl, btreeLookup m.mapping k = some (pfn, fl) ∧
        (fl' = fl ∨ fl' = PageFlags.materialize fl)) := by
  have hdaddr := page_number_add_offset addr
  have hoaddr := page_offset_lt addr
  have hfl132 : fl1 < 32 := (WF_lookup hWF h1).1
  have hmz1 := materialize_zero_clear fl1 hfl132
  obtain ⟨m1, pfn1', heq1, hWF1, hlk1, hlkO1, hlt1, hbit1, hget1, hbyte1, hcount1,
    hmono1, hother1⟩ := probe_write_spec m addr pfn1 fl1 hWF h1 hW1
  by_cases hsp : page_number addr ≠ page_number (addr + buf.length)
  · -- split write
    obtain ⟨pfn2, fl2, hlk2, hW2⟩ := h2 hsp
    have hge := (split_iff addr buf.length).mp hsp
    have hnext := next_page_eq addr
    have hfl232 : fl2 < 32 := (WF_lookup hWF hlk2).1
    have hmz2 := materialize_zero_clear fl2 hfl232
    have hPne : page_number addr + PAGE_SIZE ≠ page_number addr := by
      rw [PAGE_SIZE_eq]
      omega
    set wr1 : PageFrame := writeRange (m1.pages.get pfn1') (page_offset addr)
        (buf.take (PAGE_SIZE - page_offset addr)) with hwr1
    set m2 : MMU := m1.setFrame pfn1' wr1 with hm2
    have hWF2 : m2.WF := WF_setFrame hWF1 _ _
    have hm2map : m2.mapping = m1.mapping := rfl
    have hlk2' : btreeLookup m2.mapping
        (page_number (addr + (PAGE_SIZE - page_offset addr))) = some (pfn2, fl2) := by
      rw [hm2map, hnext, page_number_next, hlkO1 _ hPne]
      exact hlk2
    obtain ⟨m3, pfn2', heq3, hWF3, hlk3, hlkO3, hlt3, hbit3, hget3, hbyte3, hcount3,
      hmono3, hother3⟩ :=
      probe_write_spec m2 (addr + (PAGE_SIZE - page_offset addr)) pfn2 fl2 hWF2 hlk2' hW2
    set wr2 : PageFrame := writeRange (m3.pages.get pfn2') 0
        (buf.drop (PAGE_SIZE - page_offset addr)) with hwr2
    set m4 : MMU := m3.setFrame pfn2' wr2 with hm4
    have hm4map : m4.mapping = m3.mapping := rfl
    have hwrite : m.write addr buf = (m4, none) := by
      rw [MMU.write, if_pos hsp]
      simp only [heq1, heq3]
    have hnextpn : page_number (addr + (PAGE_SIZE - page_offset addr))
        = page_number addr + PAGE_SIZE := by
      rw [hnext, page_number_next]
    have hlk3' : btreeLookup m3.mapping (page_number addr + PAGE_SIZE)
        = some (pfn2', PageFlags.materialize fl2) := by
      rw [← hnextpn]
      exact hlk3
    rw [hwrite]
    -- the byte view after the two half-writes
    have hbyte2 : ∀ a, m2.byteAt a =
        if page_number a = page_number addr then wr1 (page_offset a)
        else m.byteAt a := by
      intro a
      rw [hm2, byteAt_setFrame_owner hWF1 hlk1 hmz1 wr1 a]
      by_cases hp : page_number a = page_number addr
      · rw [if_pos hp, if_pos hp]
      · rw [if_neg hp, if_neg hp, hbyte1]
    have hbyte4 : ∀ a, m4.byteAt a =
        if page_number a = page_number addr + PAGE_SIZE then wr2 (page_offset a)
        else m2.byteAt a := by
      intro a
      rw [hm4]
      have := byteAt_setFrame_owner hWF3 hlk3 hmz2 wr2 a
      rw [hnextpn] at this
      rw [this]
      by_cases hp : page_number a = page_number addr + PAGE_SIZE
      · rw [if_pos hp, if_pos hp]
      · rw [if_neg hp, if_neg hp, hbyte3]
    refine ⟨rfl, WF_setFrame hWF3 _ _, ?_, ?_, ?_⟩
    · -- logical bytes
      intro a
      have hda := page_number_add_offset a
      have hoa := page_offset_lt a
      have htk : (buf.take (PAGE_SIZE - page_offset addr)).length
          = PAGE_SIZE - page_offset addr := by
        rw [List.length_take]
        omega
      have hdr : (buf.drop (PAGE_SIZE - page_offset addr)).length
          = buf.length - (PAGE_SIZE - page_offset addr) := by
        rw [List.length_drop]
      rw [hbyte4 a]
      by_cases hp2 : page_number a = page_number addr + PAGE_SIZE
      · rw [if_pos hp2, hwr2, writeRange]
        have hcond : (0 ≤ page_offset a ∧
            page_offset a < 0 + (buf.drop (PAGE_SIZE - page_offset addr)).length) ↔
            (addr ≤ a ∧ a < addr + buf.length) := by
          rw [hdr]
          omega
        by_cases hin : addr ≤ a ∧ a < addr + buf.length
        · rw [if_pos (hcond.mpr hin), if_pos hin, Nat.sub_zero, getD_drop]
          congr 1
          omega
        · rw [if_neg (fun hc => hin (hcond.mp hc)), if_neg hin]
          -- outside the written range, within the second page
          have hbA : m.byteAt a = if PageFlags.intersects fl2 PageFlags.ZERO = true
              then 0 else m.pages.get pfn2 (page_offset a) := by
            rw [MMU.byteAt, hp2, hlk2]
          rw [hbA, hget3 (page_offset a)]
          by_cases hz2 : PageFlags.intersects fl2 PageFlags.ZERO = true
          · rw [if_pos hz2, if_pos hz2]
          · have hz2' : PageFlags.intersects fl2 PageFlags.ZERO = false := by
              simpa using hz2
            rw [if_neg hz2, if_neg hz2, hm2]
            show (m1.pages.setFrame pfn1' wr1).get pfn2 (page_offset a)
              = m.pages.get pfn2 (page_offset a)
            rw [(setFrame_spec m1.pages pfn1' wr1).2.2.2.2 pfn2
              (hother1 _ _ _ hPne hlk2 hz2').2,
              (hother1 _ _ _ hPne hlk2 hz2').1]
      · rw [if_neg hp2, hbyte2 a]
        by_cases hp1 : page_number a = page_number addr
        · rw [if_pos hp1, hwr1, writeRange, htk]
          have hub : a < addr + buf.length := by omega
          have hcond : (page_offset addr ≤ page_offset a ∧
              page_offset a < page_offset addr + (PAGE_SIZE - page_offset addr)) ↔
              addr ≤ a := by
            omega
          by_cases hin : addr ≤ a
          · rw [if_pos (hcond.mpr hin), if_pos ⟨hin, hub⟩, getD_take]
            · congr 1
              omega
            · omega
          · rw [if_neg (fun hc => hin (hcond.mp hc)), if_neg (fun hc => hin hc.1)]
            -- outside the written range, within the first page
            have hbA : m.byteAt a = if PageFlags.intersects fl1 PageFlags.ZERO = true
                then 0 else m.pages.get pfn1 (page_offset a) := by
              rw [MMU.byteAt, hp1, h1]
            rw [hbA, hget1 (page_offset a)]
        · -- untouched page
          rw [if_neg hp1]
          have hout : ¬ (addr ≤ a ∧ a < addr + buf.length) := by
            intro ⟨hlo, hhi⟩
            have hmod := page_number_mod addr
            rcases Nat.lt_or_ge a (page_number addr + PAGE_SIZE) with hc | hc
            · apply hp1
              have ha : a = page_number addr + (a - page_number addr) := by omega
              rw [ha, page_number_aligned_add _ _ hmod (by omega)]
            · apply hp2
              have ha : a = (page_number addr + PAGE_SIZE) +
                  (a - (page_number addr + PAGE_SIZE)) := by omega
              rw [ha]
              apply page_number_aligned_add
              · rw [PAGE_SIZE_eq] at *
                omega
              · omega
          rw [if_neg hout]
    · -- domain preserved
      intro k
      rw [hm4map]
      by_cases hk2 : k = page_number addr + PAGE_SIZE
      · rw [hk2, hlk3', hlk2]
        rfl
      · rw [hlkO3 _ (by rw [hnextpn]; exact hk2), hm2map]
        by_cases hk1 : k = page_number addr
        · rw [hk1, hlk1, h1]
          rfl
        · rw [hlkO1 _ hk1]
    · -- flags evolve only by materialization
      intro k pfn' fl' hk
      rw [hm4map] at hk
      by_cases hk2 : k = page_number addr + PAGE_SIZE
      · subst hk2
        rw [hlk3'] at hk
        obtain ⟨he1, he2⟩ := Prod.mk.injEq .. ▸ Option.some.injEq .. ▸ hk
        exact ⟨pfn2, fl2, hlk2, Or.inr (by rw [← he2])⟩
      · rw [hlkO3 _ (by rw [hnextpn]; exact hk2), hm2map] at hk
        by_cases hk1 : k = page_number addr
        · subst hk1
          rw [hlk1] at hk
          obtain ⟨he1, he2⟩ := Prod.mk.injEq .. ▸ Option.some.injEq .. ▸ hk
          exact ⟨pfn1, fl1, h1, Or.inr (by rw [← he2])⟩
        · rw [hlkO1 _ hk1] at hk
          exact ⟨pfn', fl', hk, Or.inl rfl⟩
  · -- single-page write
    rw [Ne, not_not] at hsp
    have hlt : page_offset addr + buf.length < PAGE_SIZE ∨ buf.length = 0 := by
      by_cases h0 : buf.length = 0
      · exact Or.inr h0
      · left
        by_contra hc
        have := (split_iff addr buf.length).mpr (by omega)
        rw [hsp] at this
        exact this rfl
    set wr : PageFrame := writeRange (m1.pages.get pfn1') (page_offset addr) buf with hwr
    set mfin : MMU := m1.setFrame pfn1' wr with hmfin
    have hwrite : m.write addr buf = (mfin, none) := by
      rw [MMU.write, if_neg (by rw [hsp]; exact fun hc => hc rfl)]
      simp only [heq1]
    rw [hwrite]
    have hmfinmap : mfin.mapping = m1.mapping := rfl
    refine ⟨rfl, WF_setFrame hWF1 _ _, ?_, ?_, ?_⟩
    · intro a
      have hda := page_number_add_offset a
      have hoa := page_offset_lt a
      rw [hmfin, byteAt_setFrame_owner hWF1 hlk1 hmz1 wr a]
      by_cases hp1 : page_number a = page_number addr
      · rw [if_pos hp1, hwr, writeRange]
        have hcond : (page_offset addr ≤ page_offset a ∧
            page_offset a < page_offset addr + buf.length) ↔
            (addr ≤ a ∧ a < addr + buf.length) := by
          omega
        by_cases hin : addr ≤ a ∧ a < addr + buf.length
        · rw [if_pos (hcond.mpr hin), if_pos hin]
          congr 1
          omega
        · rw [if_neg (fun hc => hin (hcond.mp hc)), if_neg hin]
          have hbA : m.byteAt a = if PageFlags.intersects fl1 PageFlags.ZERO = true
              then 0 else m.pages.get pfn1 (page_offset a) := by
            rw [MMU.byteAt, hp1, h1]
          rw [hbA, hget1 (page_offset a)]
      · rw [if_neg hp1, hbyte1]
        have hout : ¬ (addr ≤ a ∧ a < addr + buf.length) := by
          intro ⟨hlo, hhi⟩
          apply hp1
          have hmod := page_number_mod addr
          have ha : a = page_number addr + (a - page_number addr) := by omega
          rw [ha, page_number_aligned_add _ _ hmod (by omega)]
        rw [if_neg hout]
    · intro k
      rw [hmfinmap]
      by_cases hk1 : k = page_number addr
      · rw [hk1, hlk1, h1]
        rfl
      · rw [hlkO1 _ hk1]
    · intro k pfn' fl' hk
      rw [hmfinmap] at hk
      by_cases hk1 : k = page_number addr
      · subst hk1
        rw [hlk1] at hk
        obtain ⟨he1, he2⟩ := Prod.mk.injEq .. ▸ Option.some.injEq .. ▸ hk
        exact ⟨pfn1, fl1, h1, Or.inr (by rw [← he2])⟩
      · rw [hlkO1 _ hk1] at hk
        exact ⟨pfn', fl', hk, Or.inl rfl⟩

/-! ## mmap -/

theorem firstIdxFrom_some {p : Nat → Bool} {start count i : Nat}
    (h : firstIdxFrom p start count = some i) :
    start ≤ i ∧ i < start + count ∧ p i = true ∧
      ∀ j, start ≤ j → j < i → p j = false := by
  induction count generalizing start with
  | zero => simp [firstIdxFrom] at h
  | succ c ih =>
    rw [firstIdxFrom] at h
    by_cases hp : p start = true
    · rw [if_pos hp] at h
      simp only [Option.some.injEq] at h
      subst h
      exact ⟨Nat.le_refl _, by omega, hp, fun j h1 h2 => by omega⟩
    · rw [if_neg hp] at h
      obtain ⟨g1, g2, g3, g4⟩ := ih h
      refine ⟨by omega, by omega, g3, ?_⟩
      intro j h1 h2
      by_cases hj : j = start
      · subst hj
        simpa using hp
      · exact g4 j (by omega) h2

theorem firstIdxFrom_none {p : Nat → Bool} {start count : Nat}
    (h : firstIdxFrom p start count = none) :
    ∀ j, start ≤ j → j < start + count → p j = false := by
  induction count generalizing start with
  | zero => intro j h1 h2; omega
  | succ c ih =>
    rw [firstIdxFrom] at h
    by_cases hp : p start = true
    · rw [if_pos hp] at h
      cases h
    · rw [if_neg hp] at h
      intro j h1 h2
      by_cases hj : j = start
      · subst hj
        simpa using hp
      · exact ih h j (by omega) (by omega)

theorem firstIdxFrom_intro {p : Nat → Bool} {start count i : Nat}
    (h1 : start ≤ i) (h2 : i < start + count) (h3 : p i = true)
    (h4 : ∀ j, start ≤ j → j < i → p j = false) :
    firstIdxFrom p start count = some i := by
  induction count generalizing start with
  | zero => omega
  | succ c ih =>
    rw [firstIdxFrom]
    by_cases hp : p start = true
    · rw [if_pos hp]
      by_cases hi : i = start
      · rw [hi]
      · rw [h4 start (Nat.le_refl _) (by omega)] at hp
        cases hp
    · rw [if_neg hp]
      have hi : i ≠ start := fun hc => hp (hc ▸ h3)
      exact ih (by omega) (by omega) (fun j hj1 hj2 => h4 j (by omega) hj2)

theorem firstIdxFrom_none_intro {p : Nat → Bool} {start count : Nat}
    (h : ∀ j, start ≤ j → j < start + count → p j = false) :
    firstIdxFrom p start count = none := by
  induction count generalizing start with
  | zero => rfl
  | succ c ih =>
    rw [firstIdxFrom, if_neg (by rw [h start (Nat.le_refl _) (by omega)]; simp)]
    exact ih fun j h1 h2 => h j (by omega) (by omega)

theorem mapPages_lookup_out (flags addr count : Nat) (mp : Mapping) (k : Nat)
    (hk : ∀ i, i < count → k ≠ addr + i * PAGE_SIZE) :
    btreeLookup (mapPages flags addr count mp) k = btreeLookup mp k := by
  induction count generalizing addr mp with
  | zero => rfl
  | succ c ih =>
    rw [mapPages, ih _ _ (fun i hi => by
      have := hk (i + 1) (by omega)
      intro hc
      apply this
      rw [hc]
      ring)]
    rw [btreeLookup_insert, if_neg (by
      have := hk 0 (by omega)
      simpa using this)]

theorem mapPages_lookup_in (flags addr count : Nat) (mp : Mapping) (i : Nat)
    (hi : i < count) :
    btreeLookup (mapPages flags addr count mp) (addr + i * PAGE_SIZE)
      = some (INVALID_PFN, flags) := by
  induction count generalizing addr mp i with
  | zero => omega
  | succ c ih =>
    rw [mapPages]
    cases i with
    | zero =>
      rw [mapPages_lookup_out _ _ _ _ _ (fun j hj => by
        intro hc
        rw [PAGE_SIZE_eq] at hc
        omega)]
      rw [btreeLookup_insert]
      simp
    | succ i =>
      have he : addr + (i + 1) * PAGE_SIZE = (addr + PAGE_SIZE) + i * PAGE_SIZE := by
        ring
      rw [he]
      exact ih _ _ _ (by omega)

theorem mapPages_sorted (flags addr count : Nat) (mp : Mapping)
    (hs : MapSorted mp) : MapSorted (mapPages flags addr count mp) := by
  induction count generalizing addr mp with
  | zero => exact hs
  | succ c ih =>
    rw [mapPages]
    exact ih _ _ (btreeInsert_sorted _ _ _ hs)

theorem mapPages_mem (flags addr count : Nat) (mp : Mapping)
    (e : Nat × (Nat × Nat)) (h : e ∈ mapPages flags addr count mp) :
    e.2 = (INVALID_PFN, flags) ∨ e ∈ mp := by
  induction count generalizing addr mp with
  | zero => exact Or.inr h
  | succ c ih =>
    rw [mapPages] at h
    rcases ih _ _ h with h' | h'
    · exact Or.inl h'
    · rcases btreeInsert_mem_strong _ _ _ _ h' with h'' | h''
      · rw [h'']
        exact Or.inl rfl
      · exact Or.inr h''

theorem mapPages_pairwise {R : Nat × (Nat × Nat) → Nat × (Nat × Nat) → Prop}
    (flags addr count : Nat) (mp : Mapping)
    (hnew : ∀ k (e' : Nat × (Nat × Nat)),
      R (k, (INVALID_PFN, flags)) e' ∧ R e' (k, (INVALID_PFN, flags)))
    (hl : mp.Pairwise R) :
    (mapPages flags addr count mp).Pairwise R := by
  induction count generalizing addr mp with
  | zero => exact hl
  | succ c ih =>
    rw [mapPages]
    exact ih _ _ (btreeInsert_pairwise _ _ _ (fun e he => hnew addr e) hl)

theorem mmap_conflict (m : MMU) (addr size perms i : Nat)
    (hi : i < size / PAGE_SIZE)
    (hc : (btreeLookup m.mapping (addr + i * PAGE_SIZE)).isSome = true)
    (hmin : ∀ j, j < i → btreeLookup m.mapping (addr + j * PAGE_SIZE) = none) :
    m.mmap addr size perms
      = (m, some (.AddressAlreadyMapped (addr + i * PAGE_SIZE))) := by
  rw [MMU.mmap]
  have hfind : firstIdxFrom
      (fun i => (btreeLookup m.mapping (addr + i * PAGE_SIZE)).isSome)
      0 (size / PAGE_SIZE) = some i := by
    apply firstIdxFrom_intro (Nat.zero_le _) (by omega) hc
    intro j _ hj
    rw [hmin j hj]
    rfl
  rw [hfind]

theorem mmap_success (m : MMU) (addr size perms : Nat)
    (hall : ∀ i, i < size / PAGE_SIZE →
      btreeLookup m.mapping (addr + i * PAGE_SIZE) = none) :
    m.mmap addr size perms =
      ({ m with mapping := (mapPages
          (PageFlags.ZERO ||| PageFlags.from_bits_truncate perms)
          addr (size / PAGE_SIZE) m.mapping) }, none) := by
  rw [MMU.mmap]
  have hfind : firstIdxFrom
      (fun i => (btreeLookup m.mapping (addr + i * PAGE_SIZE)).isSome)
      0 (size / PAGE_SIZE) = none := by
    apply firstIdxFrom_none_intro
    intro j _ hj
    rw [hall j (by omega)]
    rfl
  rw [hfind]

theorem WF_mmap (m : MMU) (addr size perms : Nat) (hWF : m.WF)
    (hperm : perms < 8) : (m.mmap addr size perms).1.WF := by
  rcases hcase : firstIdxFrom
      (fun i => (btreeLookup m.mapping (addr + i * PAGE_SIZE)).isSome)
      0 (size / PAGE_SIZE) with _ | i
  · have hall : ∀ i, i < size / PAGE_SIZE →
        btreeLookup m.mapping (addr + i * PAGE_SIZE) = none := by
      intro i hi
      have := firstIdxFrom_none hcase i (Nat.zero_le _) (by omega)
      simpa using this
    rw [mmap_success m addr size perms hall]
    set flags0 := PageFlags.ZERO ||| PageFlags.from_bits_truncate perms with hflags0
    have hf0 : flags0 = PageFlags.ZERO ||| perms := by
      rw [hflags0, truncate_of_lt perms hperm]
    have hfz := (mmap_flags_facts perms (by omega)).1
    have hflt := (mmap_flags_facts perms (by omega)).2
    have hfc := mmap_flags_cow perms hperm
    obtain ⟨w1, w2, w3, w4⟩ := hWF
    refine ⟨w1, mapPages_sorted _ _ _ _ w2, ?_, ?_⟩
    · intro e he
      rcases mapPages_mem _ _ _ _ _ he with h' | h'
      · rw [show e.2.1 = INVALID_PFN from by rw [h'],
          show e.2.2 = flags0 from by rw [h'], hf0]
        refine ⟨hflt, hfc, fun _ => rfl, ?_⟩
        intro hz
        rw [hfz] at hz
        cases hz
      · exact w3 e h'
    · apply mapPages_pairwise _ _ _ _ _ w4
      intro k e'
      constructor
      · intro hz
        rw [show (k, (INVALID_PFN, flags0)).2.2 = flags0 from rfl, hf0, hfz] at hz
        cases hz
      · intro _ hz
        rw [show (k, (INVALID_PFN, flags0)).2.2 = flags0 from rfl, hf0, hfz] at hz
        cases hz
  · rw [MMU.mmap]
    rw [hcase]
    exact hWF

/-! ## munmap -/

theorem btreeLookup_none_forall {l : Mapping} {k : Nat}
    (h : btreeLookup l k = none) : ∀ e ∈ l, e.1 ≠ k := by
  induction l with
  | nil => intro e he; cases he
  | cons e0 rest ih =>
    obtain ⟨k0, v0⟩ := e0
    intro e he
    by_cases hk : k = k0
    · rw [btreeLookup, if_pos hk] at h
      cases h
    · rw [btreeLookup, if_neg hk] at h
      rcases List.mem_cons.mp he with h' | h'
      · rw [h']
        exact fun hc => hk hc.symm
      · exact ih h e h'

theorem btreeErase_mem {l : Mapping} {k : Nat} {e : Nat × (Nat × Nat)}
    (h : e ∈ btreeErase k l) : e ∈ l :=
  (btreeErase_sublist k l).subset h

theorem btreeErase_mem_ne {l : Mapping} {k : Nat} {e : Nat × (Nat × Nat)}
    (hs : MapSorted l) (h : e ∈ btreeErase k l) : e.1 ≠ k :=
  btreeLookup_none_forall (btreeLookup_erase_self k l hs) e h

/-- effect of one iteration of the munmap removal loop at a mapped page. -/
theorem removeOnePage_spec (m : MMU) (va pfn0 fl0 : Nat) (hWF : m.WF)
    (hlk : btreeLookup m.mapping va = some (pfn0, fl0)) :
    (removeOnePage m va).WF ∧
    btreeLookup (removeOnePage m va).mapping va = none ∧
    (∀ k, k ≠ va →
      btreeLookup (removeOnePage m va).mapping k = btreeLookup m.mapping k) ∧
    (removeOnePage m va).pages.frames.length = m.pages.frames.length ∧
    (removeOnePage m va).pages.allocCount ≤ m.pages.allocCount ∧
    (PageFlags.intersects fl0 PageFlags.ZERO = false →
      (removeOnePage m va).pages.allocation_bitmap.getD pfn0 false = false ∧
      (∀ j, (removeOnePage m va).pages.get pfn0 j = 0)) ∧
    (∀ q, (PageFlags.intersects fl0 PageFlags.ZERO = false → q ≠ pfn0) →
      (removeOnePage m va).pages.allocation_bitmap.getD q false
        = m.pages.allocation_bitmap.getD q false ∧
      (removeOnePage m va).pages.get q = m.pages.get q) := by
  obtain ⟨w1, w2, w3, w4⟩ := hWF
  have hment := btreeLookup_mem hlk
  rcases hz : PageFlags.intersects fl0 PageFlags.ZERO with _ | _
  · -- frame-owning page: deallocate
    have hrm : removeOnePage m va =
        { pages := m.pages.deallocate pfn0, mapping := btreeErase va m.mapping } := by
      simp only [removeOnePage, hlk, hz, Bool.not_false, if_true]
    obtain ⟨d1, d2, d3, d4, d5, d6, d7⟩ := deallocate_spec m.pages pfn0
    have hWF' : (removeOnePage m va).WF := by
      rw [hrm]
      refine ⟨by rw [d1, d2]; exact w1, btreeErase_sorted _ _ w2, ?_, ?_⟩
      · intro e he
        have hmem := btreeErase_mem he
        have hne : e.1 ≠ va := btreeErase_mem_ne w2 he
        obtain ⟨e1, e2, e3, e4⟩ := w3 e hmem
        refine ⟨e1, e2, e3, ?_⟩
        intro hze
        obtain ⟨g1, g2⟩ := e4 hze
        have hqne : e.2.1 ≠ pfn0 := by
          have hdiff : e ≠ (va, pfn0, fl0) := by
            intro hc
            exact hne (by rw [hc])
          exact List.Pairwise.forall
            (by intro a b hab hb ha hc; exact (hab ha hb) hc.symm)
            w4 hmem hment hdiff hze hz
        constructor
        · show e.2.1 < (m.pages.deallocate pfn0).frames.length
          omega
        · show (m.pages.deallocate pfn0).allocation_bitmap.getD e.2.1 false = true
          rw [d5 _ hqne]
          exact g2
      · exact w4.sublist (btreeErase_sublist _ _)
    refine ⟨hWF', ?_, ?_, ?_, ?_, ?_, ?_⟩
    · rw [hrm]
      exact btreeLookup_erase_self _ _ w2
    · intro k hk
      rw [hrm]
      exact btreeLookup_erase_ne _ _ _ hk
    · rw [hrm]
      exact d1
    · rw [hrm]
      exact d7
    · intro _
      rw [hrm]
      exact ⟨d3, d4⟩
    · intro q hq
      rw [hrm]
      exact ⟨d5 _ (hq rfl), d6 _ (hq rfl)⟩
  · -- lazy-zero page: nothing freed
    have hrm : removeOnePage m va =
        { pages := m.pages, mapping := btreeErase va m.mapping } := by
      simp only [removeOnePage, hlk, hz, Bool.not_true, Bool.false_eq_true, if_false]
    have hWF' : (removeOnePage m va).WF := by
      rw [hrm]
      refine ⟨w1, btreeErase_sorted _ _ w2, ?_, w4.sublist (btreeErase_sublist _ _)⟩
      intro e he
      exact w3 e (btreeErase_mem he)
    refine ⟨hWF', ?_, ?_, by rw [hrm], by rw [hrm], ?_, ?_⟩
    · rw [hrm]
      exact btreeLookup_erase_self _ _ w2
    · intro k hk
      rw [hrm]
      exact btreeLookup_erase_ne _ _ _ hk
    · intro hc
      cases hc
    · intro q _
      rw [hrm]
      exact ⟨rfl, rfl⟩

/-- effect of the munmap removal loop once the two-phase check passed:
every page of the range is removed, other entries are untouched, frames
of non-`ZERO` entries are returned to the pool (bit cleared, contents
zeroed), and nothing else in the pool changes. -/
theorem unmapPages_spec (count : Nat) (addr : Nat) (m : MMU) (hWF : m.WF)
    (hall : ∀ i, i < count →
      (btreeLookup m.mapping (addr + i * PAGE_SIZE)).isSome = true) :
    (unmapPages addr count m).WF ∧
    (∀ i, i < count →
      btreeLookup (unmapPages addr count m).mapping (addr + i * PAGE_SIZE) = none) ∧
    (∀ k, (∀ i, i < count → k ≠ addr + i * PAGE_SIZE) →
      btreeLookup (unmapPages addr count m).mapping k = btreeLookup m.mapping k) ∧
    (unmapPages addr count m).pages.frames.length = m.pages.frames.length ∧
    (unmapPages addr count m).pages.allocCount ≤ m.pages.allocCount ∧
    (∀ i pfn fl, i < count →
      btreeLookup m.mapping (addr + i * PAGE_SIZE) = some (pfn, fl) →
      PageFlags.intersects fl PageFlags.ZERO = false →
      (unmapPages addr count m).pages.allocation_bitmap.getD pfn false = false ∧
      (∀ j, (unmapPages addr count m).pages.get pfn j = 0)) ∧
    (∀ q, (∀ i pfn fl, i < count →
        btreeLookup m.mapping (addr + i * PAGE_SIZE) = some (pfn, fl) →
        PageFlags.intersects fl PageFlags.ZERO = false → q ≠ pfn) →
      (unmapPages addr count m).pages.allocation_bitmap.getD q false
        = m.pages.allocation_bitmap.getD q false ∧
      (unmapPages addr count m).pages.get q = m.pages.get q) := by
  induction count generalizing addr m with
  | zero =>
    refine ⟨hWF, fun i hi => by omega, fun k _ => rfl, rfl, Nat.le_refl _,
      fun i _ _ hi => by omega, fun q _ => ⟨rfl, rfl⟩⟩
  | succ c ih =>
    have hkey : ∀ (i : Nat),
        addr + (i + 1) * PAGE_SIZE = (addr + PAGE_SIZE) + i * PAGE_SIZE := by
      intro i
      ring
    have hne0 : ∀ (i : Nat), (addr + PAGE_SIZE) + i * PAGE_SIZE ≠ addr := by
      intro i
      rw [PAGE_SIZE_eq]
      omega
    have h0 := hall 0 (by omega)
    rw [Option.isSome_iff_exists] at h0
    obtain ⟨⟨pfn0, fl0⟩, hlk0⟩ := h0
    rw [Nat.zero_mul, Nat.add_zero] at hlk0
    obtain ⟨rWF, rnone, rother, rlen, rcount, rfreed, runch⟩ :=
      removeOnePage_spec m addr pfn0 fl0 hWF hlk0
    have hmr : ∀ (i : Nat), i < c →
        btreeLookup (removeOnePage m addr).mapping ((addr + PAGE_SIZE) + i * PAGE_SIZE)
          = btreeLookup m.mapping (addr + (i + 1) * PAGE_SIZE) := by
      intro i hi
      rw [rother _ (hne0 i), hkey i]
    have hall' : ∀ i, i < c →
        (btreeLookup (removeOnePage m addr).mapping
          ((addr + PAGE_SIZE) + i * PAGE_SIZE)).isSome = true := by
      intro i hi
      rw [hmr i hi]
      exact hall (i + 1) (by omega)
    obtain ⟨iWF, inone, iother, ilen, icount, ifreed, iunch⟩ :=
      ih (addr + PAGE_SIZE) (removeOnePage m addr) rWF hall'
    have hstep : unmapPages addr (c + 1) m
        = unmapPages (addr + PAGE_SIZE) c (removeOnePage m addr) := rfl
    -- the removed head entry's frame is disjoint from every other
    -- non-ZERO entry's frame (exclusive ownership)
    have hdisj : PageFlags.intersects fl0 PageFlags.ZERO = false →
        ∀ i pfn fl, i < c →
        btreeLookup (removeOnePage m addr).mapping
          ((addr + PAGE_SIZE) + i * PAGE_SIZE) = some (pfn, fl) →
        PageFlags.intersects fl PageFlags.ZERO = false → pfn0 ≠ pfn := by
      intro hz0 i pfn fl hi hlki hzi
      rw [rother _ (hne0 i)] at hlki
      exact WF_distinct_pfn hWF (fun hc => hne0 i hc.symm) hlk0 hlki hz0 hzi
    rw [hstep]
    refine ⟨iWF, ?_, ?_, by omega, by omega, ?_, ?_⟩
    · -- all pages in range unmapped
      intro i hi
      cases i with
      | zero =>
        rw [Nat.zero_mul, Nat.add_zero]
        rw [iother addr (fun j hj hc => hne0 j hc.symm)]
        exact rnone
      | succ i =>
        rw [hkey i]
        exact inone i (by omega)
    · -- other keys untouched
      intro k hk
      rw [iother k (fun i hi => by rw [← hkey i]; exact hk (i + 1) (by omega))]
      exact rother k (hk 0 (by omega) ∘ (by rw [Nat.zero_mul, Nat.add_zero]; exact ·))
    · -- frames of non-ZERO entries returned
      intro i pfn fl hi hlki hzi
      cases i with
      | zero =>
        rw [Nat.zero_mul, Nat.add_zero] at hlki
        rw [hlk0] at hlki
        injection hlki with h1
        injection h1 with h2 h3
        subst h2
        subst h3
        have hq := iunch pfn0 (fun j pfn' fl' hj hlkj hzj =>
          hdisj hzi j pfn' fl' hj hlkj hzj)
        refine ⟨?_, ?_⟩
        · rw [hq.1]
          exact (rfreed hzi).1
        · intro j
          rw [hq.2]
          exact (rfreed hzi).2 j
      | succ i =>
        rw [← hmr i (by omega)] at hlki
        exact ifreed i pfn fl (by omega) hlki hzi
    · -- everything else in the pool untouched
      intro q hq
      have hq0 : PageFlags.intersects fl0 PageFlags.ZERO = false → q ≠ pfn0 := by
        intro hz0
        exact hq 0 pfn0 fl0 (by omega)
          (by rw [Nat.zero_mul, Nat.add_zero]; exact hlk0) hz0
      have hqi := iunch q (fun i pfn fl hi hlki hzi => by
        rw [hmr i hi] at hlki
        exact hq (i + 1) pfn fl (by omega) hlki hzi)
      have hqr := runch q hq0
      exact ⟨by rw [hqi.1, hqr.1], by rw [hqi.2, hqr.2]⟩

theorem munmap_missing (m : MMU) (addr size i : Nat)
    (hi : i < size / PAGE_SIZE)
    (hc : btreeLookup m.mapping (addr + i * PAGE_SIZE) = none)
    (hmin : ∀ j, j < i →
      (btreeLookup m.mapping (addr + j * PAGE_SIZE)).isSome = true) :
    m.munmap addr size = (m, some (.AddressNotMapped (addr + i * PAGE_SIZE))) := by
  rw [MMU.munmap]
  have hfind : firstIdxFrom
      (fun i => (btreeLookup m.mapping (addr + i * PAGE_SIZE)).isNone)
      0 (size / PAGE_SIZE) = some i := by
    apply firstIdxFrom_intro (Nat.zero_le _) (by omega) (by rw [hc]; rfl)
    intro j _ hj
    rcases hlk : btreeLookup m.mapping (addr + j * PAGE_SIZE) with _ | v
    · have := hmin j hj
      rw [hlk] at this
      cases this
    · rfl
  rw [hfind]

theorem munmap_success_eq (m : MMU) (addr size : Nat)
    (hall : ∀ i, i < size / PAGE_SIZE →
      (btreeLookup m.mapping (addr + i * PAGE_SIZE)).isSome = true) :
    m.munmap addr size = (unmapPages addr (size / PAGE_SIZE) m, none) := by
  rw [MMU.munmap]
  have hfind : firstIdxFrom
      (fun i => (btreeLookup m.mapping (addr + i * PAGE_SIZE)).isNone)
      0 (size / PAGE_SIZE) = none := by
    apply firstIdxFrom_none_intro
    intro j _ hj
    rcases hlk : btreeLookup m.mapping (addr + j * PAGE_SIZE) with _ | v
    · have := hall j (by omega)
      rw [hlk] at this
      cases this
    · rfl
  rw [hfind]

theorem WF_munmap (m : MMU) (addr size : Nat) (hWF : m.WF) :
    (m.munmap addr size).1.WF := by
  rcases hcase : firstIdxFrom
      (fun i => (btreeLookup m.mapping (addr + i * PAGE_SIZE)).isNone)
      0 (size / PAGE_SIZE) with _ | i
  · have hall : ∀ i, i < size / PAGE_SIZE →
        (btreeLookup m.mapping (addr + i * PAGE_SIZE)).isSome = true := by
      intro i hi
      have := firstIdxFrom_none hcase i (Nat.zero_le _) (by omega)
      rcases hlk : btreeLookup m.mapping (addr + i * PAGE_SIZE) with _ | v
      · rw [hlk] at this
        cases this
      · rfl
    rw [munmap_success_eq m addr size hall]
    exact (unmapPages_spec _ _ _ hWF hall).1
  · rw [MMU.munmap, hcase]
    exact hWF

theorem WF_write (m : MMU) (addr : Nat) (buf : List Nat) (hWF : m.WF) :
    (m.write addr buf).1.WF := by
  by_cases hsp : page_number addr ≠ page_number (addr + buf.length)
  · rcases hlk : btreeLookup m.mapping (page_number addr) with _ | ⟨pfn, fl⟩
    · rw [MMU.write, if_pos hsp]
      simp only [probe_write_not_mapped m addr hlk]
      exact hWF
    · rcases hW : PageFlags.intersects fl PageFlags.PERM_W with _ | _
      · rw [MMU.write, if_pos hsp]
        simp only [probe_write_not_writable m addr pfn fl hlk hW]
        exact hWF
      · obtain ⟨m1, pfn1', heq1, hWF1, hlk1, hlkO1, _, _, _, _, _, _, _⟩ :=
          probe_write_spec m addr pfn fl hWF hlk hW
        rw [MMU.write, if_pos hsp]
        simp only [heq1]
        set m2 : MMU := m1.setFrame pfn1'
          (writeRange (m1.pages.get pfn1') (page_offset addr)
            (buf.take (PAGE_SIZE - page_offset addr))) with hm2
        have hWF2 : m2.WF := WF_setFrame hWF1 _ _
        rcases hlk2 : btreeLookup m2.mapping
            (page_number (addr + (PAGE_SIZE - page_offset addr))) with _ | ⟨pfn2, fl2⟩
        · simp only [probe_write_not_mapped m2 _ hlk2]
          exact hWF2
        · rcases hW2 : PageFlags.intersects fl2 PageFlags.PERM_W with _ | _
          · simp only [probe_write_not_writable m2 _ pfn2 fl2 hlk2 hW2]
            exact hWF2
          · obtain ⟨m3, pfn2', heq3, hWF3, _, _, _, _, _, _, _, _, _⟩ :=
              probe_write_spec m2 _ pfn2 fl2 hWF2 hlk2 hW2
            simp only [heq3]
            exact WF_setFrame hWF3 _ _
  · rcases hlk : btreeLookup m.mapping (page_number addr) with _ | ⟨pfn, fl⟩
    · rw [MMU.write, if_neg hsp]
      simp only [probe_write_not_mapped m addr hlk]
      exact hWF
    · rcases hW : PageFlags.intersects fl PageFlags.PERM_W with _ | _
      · rw [MMU.write, if_neg hsp]
        simp only [probe_write_not_writable m addr pfn fl hlk hW]
        exact hWF
      · obtain ⟨m1, pfn1', heq1, hWF1, _, _, _, _, _, _, _, _, _⟩ :=
          probe_write_spec m addr pfn fl hWF hlk hW
        rw [MMU.write, if_neg hsp]
        simp only [heq1]
        exact WF_setFrame hWF1 _ _

theorem WF_empty : MMU.empty.WF := by
  refine ⟨rfl, List.Pairwise.nil, ?_, List.Pairwise.nil⟩
  intro e he
  cases he

theorem Reachable_WF {m : MMU} (h : Reachable m) : m.WF := by
  induction h with
  | empty => exact WF_empty
  | mmap m addr size perms _ _ _ _ hperm ih => exact WF_mmap m addr size perms ih hperm
  | munmap m addr size _ _ _ _ ih => exact WF_munmap m addr size ih
  | write m addr buf _ _ ih => exact WF_write m addr buf ih

/-! ## Little-endian codec -/

theorem materialize_idem : ∀ fl < 32,
    PageFlags.materialize (PageFlags.materialize fl) = PageFlags.materialize fl := by
  decide

theorem leEncode_length (w v : Nat) : (leEncode w v).length = w := by
  induction w generalizing v with
  | zero => rfl
  | succ w ih => simp [leEncode, ih]

theorem leDecode_leEncode (w v : Nat) (hv : v < 256 ^ w) :
    leDecode (leEncode w v) = v := by
  induction w generalizing v with
  | zero =>
    rw [pow_zero] at hv
    simp [leEncode, leDecode]
    omega
  | succ w ih =>
    rw [leEncode, leDecode, ih (v / 256) (by
      rw [pow_succ] at hv
      exact Nat.div_lt_of_lt_mul (by omega))]
    omega

theorem map_getD_range (l : List Nat) :
    (List.range l.length).map (fun i => l.getD i 0) = l := by
  induction l with
  | nil => rfl
  | cons b rest ih =>
    rw [List.length_cons, List.range_succ_eq_map, List.map_cons, List.map_map]
    show (b :: rest).getD 0 0 :: (List.range rest.length).map (fun i => rest.getD i 0)
      = b :: rest
    rw [ih]
    rfl

/-! ## Byte-at-a-time writes -/

set_option maxHeartbeats 2000000 in
/-- writing a byte list one `write_u8` at a time inside a straddling
two-page region (both pages mapped writable) succeeds and performs the
same cumulative update of the logical bytes as one `write` of the whole
list, with the same domain/flags evolution. -/
theorem writeBytes_spec (buf : List Nat) :
    ∀ (m : MMU) (a P1 : Nat),
    m.WF →
    (∀ b ∈ buf, b < 256) →
    (∃ pfn fl, btreeLookup m.mapping P1 = some (pfn, fl) ∧
      PageFlags.intersects fl PageFlags.PERM_W = true) →
    (∃ pfn fl, btreeLookup m.mapping (P1 + PAGE_SIZE) = some (pfn, fl) ∧
      PageFlags.intersects fl PageFlags.PERM_W = true) →
    P1 % PAGE_SIZE = 0 →
    P1 ≤ a →
    a + buf.length < P1 + 2 * PAGE_SIZE →
    (writeBytes m a buf).2 = none ∧
    (writeBytes m a buf).1.WF ∧
    (∀ x, (writeBytes m a buf).1.byteAt x =
      if a ≤ x ∧ x < a + buf.length then buf.getD (x - a) 0 else m.byteAt x) ∧
    (∀ k, (btreeLookup (writeBytes m a buf).1.mapping k).isSome
      = (btreeLookup m.mapping k).isSome) ∧
    (∀ k pfn' fl', btreeLookup (writeBytes m a buf).1.mapping k = some (pfn', fl') →
      ∃ pfn fl, btreeLookup m.mapping k = some (pfn, fl) ∧
        (fl' = fl ∨ fl' = PageFlags.materialize fl)) := by
  induction buf with
  | nil =>
    intro m a P1 hWF _ _ _ _ _ _
    refine ⟨rfl, hWF, ?_, fun k => rfl, fun k pfn' fl' hk => ⟨pfn', fl', hk, Or.inl rfl⟩⟩
    intro x
    rw [if_neg (by simp only [List.length_nil]; omega)]
    rfl
  | cons b rest ih =>
    intro m a P1 hWF hbytes hP1 hP2 halign hle hbound
    have hb : b < 256 := hbytes b (List.mem_cons_self _ _)
    have hlen : (b :: rest).length = rest.length + 1 := rfl
    -- the page containing `a`, and the page a boundary-touching probe hits
    have hpa : page_number a = P1 ∨ page_number a = P1 + PAGE_SIZE := by
      rcases Nat.lt_or_ge a (P1 + PAGE_SIZE) with hc | hc
      · left
        have ha : a = P1 + (a - P1) := by omega
        rw [ha, page_number_aligned_add _ _ halign (by omega)]
      · right
        have ha : a = (P1 + PAGE_SIZE) + (a - (P1 + PAGE_SIZE)) := by omega
        rw [ha]
        apply page_number_aligned_add
        · rw [PAGE_SIZE_eq] at *
          omega
        · rw [PAGE_SIZE_eq] at *
          omega
    have h1 : ∃ pfn fl, btreeLookup m.mapping (page_number a) = some (pfn, fl) ∧
        PageFlags.intersects fl PageFlags.PERM_W = true := by
      rcases hpa with h | h
      · rw [h]; exact hP1
      · rw [h]; exact hP2
    obtain ⟨pfn1, fl1, hlk1, hW1⟩ := h1
    have hsplit2 : page_number a ≠ page_number (a + 1) →
        ∃ pfn2 fl2, btreeLookup m.mapping (page_number a + PAGE_SIZE)
          = some (pfn2, fl2) ∧ PageFlags.intersects fl2 PageFlags.PERM_W = true := by
      intro hsp
      have hoff := (split_iff a 1).mp hsp
      have hda := page_number_add_offset a
      have hoa := page_offset_lt a
      rcases hpa with h | h
      · rw [h]
        exact hP2
      · -- would probe past the second page: impossible inside the bound
        exfalso
        have hb2 := hbound
        rw [hlen] at hb2
        rw [h] at hda
        omega
    have hspec := write_spec m a [b] pfn1 fl1 hWF
      (by simp only [List.length_cons, List.length_nil, PAGE_SIZE_eq]; omega) hlk1 hW1
      (by simpa using hsplit2)
    obtain ⟨hs2, hsWF, hsbyte, hsdom, hsflag⟩ := hspec
    have hstep : m.write_u8 a b = m.write a [b] := by
      rw [MMU.write_u8, MMU.write_uint]
      congr 1
      show [b % 256] = [b]
      rw [Nat.mod_eq_of_lt hb]
    have hunfold : writeBytes m a (b :: rest)
        = writeBytes (m.write a [b]).1 (a + 1) rest := by
      rw [writeBytes, hstep]
      simp only [hs2]
    set m' : MMU := (m.write a [b]).1 with hm'
    have hpres : ∀ (P : Nat),
        (∃ pfn fl, btreeLookup m.mapping P = some (pfn, fl) ∧
          PageFlags.intersects fl PageFlags.PERM_W = true) →
        ∃ pfn fl, btreeLookup m'.mapping P = some (pfn, fl) ∧
          PageFlags.intersects fl PageFlags.PERM_W = true := by
      intro P hP
      obtain ⟨pfn, fl, hlk, hW⟩ := hP
      have hdom := hsdom P
      rw [hlk] at hdom
      rcases hlk' : btreeLookup m'.mapping P with _ | ⟨pfn', fl'⟩
      · rw [hlk'] at hdom
        cases hdom
      · obtain ⟨pfn0, fl0, hlk0, hor⟩ := hsflag P pfn' fl' hlk'
        rw [hlk] at hlk0
        injection hlk0 with h0
        injection h0 with h0a h0b
        have hfl32 : fl < 32 := (WF_lookup hWF hlk).1
        refine ⟨pfn', fl', rfl, ?_⟩
        rcases hor with h | h
        · rw [h, ← h0b]
          exact hW
        · rw [h, ← h0b, materialize_perm_w fl hfl32]
          exact hW
    obtain ⟨i2, iWF, ibyte, idom, iflag⟩ := ih m' (a + 1) P1 hsWF
      (fun x hx => hbytes x (List.mem_cons_of_mem _ hx))
      (hpres P1 hP1) (hpres _ hP2) halign (by omega) (by rw [hlen] at hbound; omega)
    rw [hunfold]
    refine ⟨i2, iWF, ?_, ?_, ?_⟩
    · -- cumulative byte update
      intro x
      rw [ibyte x, hsbyte x]
      by_cases hx0 : x = a
      · subst hx0
        have hA : ¬ (x + 1 ≤ x ∧ x < (x + 1) + rest.length) := by omega
        have hB : x ≤ x ∧ x < x + [x].length := by
          simp only [List.length_cons, List.length_nil]
          omega
        have hB' : x ≤ x ∧ x < x + ([b] : List Nat).length := by
          simp only [List.length_cons, List.length_nil]
          omega
        have hC : x ≤ x ∧ x < x + (b :: rest).length := by
          simp only [List.length_cons]
          omega
        rw [if_neg hA, if_pos hB', if_pos hC]
        have hz : x - x = 0 := by omega
        rw [hz]
        rfl
      · by_cases hxin : a + 1 ≤ x ∧ x < (a + 1) + rest.length
        · have hC : a ≤ x ∧ x < a + (b :: rest).length := by
            simp only [List.length_cons]
            omega
          rw [if_pos hxin, if_pos hC]
          have hidx : x - a = (x - (a + 1)) + 1 := by omega
          rw [hidx]
          rfl
        · have hx1 : x < a + 1 ∨ (a + 1) + rest.length ≤ x := by
            by_contra hc
            push_neg at hc
            exact hxin ⟨hc.1, hc.2⟩
          have hB : ¬ (a ≤ x ∧ x < a + ([b] : List Nat).length) := by
            simp only [List.length_cons, List.length_nil]
            omega
          have hC : ¬ (a ≤ x ∧ x < a + (b :: rest).length) := by
            simp only [List.length_cons]
            omega
          rw [if_neg hxin, if_neg hB, if_neg hC]
    · intro k
      rw [idom k, hsdom k]
    · intro k pfn' fl' hk
      obtain ⟨pfnm, flm, hlkm, horm⟩ := iflag k pfn' fl' hk
      obtain ⟨pfn0, fl0, hlk0, hor0⟩ := hsflag k pfnm flm hlkm
      have hfl032 : fl0 < 32 := (WF_lookup hWF hlk0).1
      refine ⟨pfn0, fl0, hlk0, ?_⟩
      rcases horm with h | h <;> rcases hor0 with h' | h'
      · exact Or.inl (by rw [h, h'])
      · exact Or.inr (by rw [h, h'])
      · exact Or.inr (by rw [h, h'])
      · exact Or.inr (by rw [h, h', materialize_idem fl0 hfl032])

/-! ## Error propagation and frame-pool bookkeeping of the public operations -/

/-- a failing first probe fails the whole `read`, split or not. -/
theorem read_probe_err (m : MMU) (addr len : Nat) (e : MMUError)
    (h : m.probe_read addr = .error e) : m.read addr len = .error e := by
  rw [MMU.read]
  by_cases hsp : page_number addr ≠ page_number (addr + len)
  · rw [if_pos hsp]
    simp only [h]
  · rw [if_neg hsp]
    simp only [h]

/-- a failing first probe fails the whole `write` and returns the state
unchanged, split or not. -/
theorem write_probe_err (m : MMU) (addr : Nat) (buf : List Nat) (e : MMUError)
    (h : m.probe_write addr = .error e) : m.write addr buf = (m, some e) := by
  rw [MMU.write]
  by_cases hsp : page_number addr ≠ page_number (addr + buf.length)
  · rw [if_pos hsp]
    simp only [h]
  · rw [if_neg hsp]
    simp only [h]

/-- `mmap` never touches the frame pool (neither on conflict nor on
success: new pages are purely virtual). -/
theorem mmap_pages_eq (m : MMU) (addr size perms : Nat) :
    (m.mmap addr size perms).1.pages = m.pages := by
  rcases hcase : firstIdxFrom
      (fun i => (btreeLookup m.mapping (addr + i * PAGE_SIZE)).isSome)
      0 (size / PAGE_SIZE) with _ | i
  · rw [MMU.mmap, hcase]
  · rw [MMU.mmap, hcase]

/-- the `munmap` removal loop never allocates (each step either keeps
the pool or deallocates). -/
theorem unmapPages_allocCount_le (count : Nat) : ∀ (addr : Nat) (m : MMU),
    (unmapPages addr count m).pages.allocCount ≤ m.pages.allocCount := by
  induction count with
  | zero => intro addr m; exact Nat.le_refl _
  | succ c ih =>
    intro addr m
    have hstep : unmapPages addr (c + 1) m
        = unmapPages (addr + PAGE_SIZE) c (removeOnePage m addr) := rfl
    have h2 : (removeOnePage m addr).pages.allocCount ≤ m.pages.allocCount := by
      rcases hlk : btreeLookup m.mapping addr with _ | ⟨pfn, fl⟩
      · simp only [removeOnePage, hlk]
        exact Nat.le_refl _
      · simp only [removeOnePage, hlk]
        split
        · exact (deallocate_spec m.pages pfn).2.2.2.2.2.2
        · exact Nat.le_refl _
    rw [hstep]
    exact Nat.le_trans (ih _ _) h2

/-- `munmap` never increases the allocation count. -/
theorem munmap_allocCount_le (m : MMU) (addr size : Nat) :
    (m.munmap addr size).1.pages.allocCount ≤ m.pages.allocCount := by
  rcases hcase : firstIdxFrom
      (fun i => (btreeLookup m.mapping (addr + i * PAGE_SIZE)).isNone)
      0 (size / PAGE_SIZE) with _ | i
  · rw [MMU.munmap, hcase]
    exact unmapPages_allocCount_le _ _ _
  · rw [MMU.munmap, hcase]

/-- the inductive invariant `WF` implies the invariant exactly as the
spec states it. -/
theorem WF_Inv {m : MMU} (hWF : m.WF) : m.Inv := by
  obtain ⟨h1, h2, h3, h4⟩ := hWF
  have hsym : Symmetric (fun (e e' : Nat × (Nat × Nat)) =>
      PageFlags.intersects e.2.2 PageFlags.ZERO = false →
      PageFlags.intersects e'.2.2 PageFlags.ZERO = false → e.2.1 ≠ e'.2.1) := by
    intro a b hab hb ha
    exact fun hc => (hab ha hb) hc.symm
  refine ⟨?_, ?_, h1⟩
  · intro e he hz
    exact (h3 e he).2.2.1 hz
  · intro e he hz _
    refine ⟨((h3 e he).2.2.2 hz).1, ((h3 e he).2.2.2 hz).2, ?_⟩
    intro e' he' hne hz' _
    exact List.Pairwise.forall hsym h4 he' he hne hz' hz

/-! ## Flags of freshly mapped pages -/

theorem mmap_flags_r_yes : ∀ p < 8, p &&& 1 = 1 →
    PageFlags.intersects (PageFlags.ZERO ||| PageFlags.from_bits_truncate p)
      PageFlags.PERM_R = true := by
  decide

theorem mmap_flags_r_no : ∀ p < 8, p &&& 1 = 0 →
    PageFlags.intersects (PageFlags.ZERO ||| PageFlags.from_bits_truncate p)
      PageFlags.PERM_R = false := by
  decide

theorem mmap_flags_w_no : ∀ p < 8, p &&& 2 = 0 →
    PageFlags.intersects (PageFlags.ZERO ||| PageFlags.from_bits_truncate p)
      PageFlags.PERM_W = false := by
  decide

theorem mmap_flags_zero : ∀ p < 8,
    PageFlags.intersects (PageFlags.ZERO ||| PageFlags.from_bits_truncate p)
      PageFlags.ZERO = true := by
  decide

/-- the page containing an address of a page-aligned range, as a range
index. -/
theorem page_number_range_idx (addr size a : Nat) (ha : addr % PAGE_SIZE = 0)
    (hs : size % PAGE_SIZE = 0) (h1 : addr ≤ a) (h2 : a < addr + size) :
    ∃ i, i < size / PAGE_SIZE ∧ page_number a = addr + i * PAGE_SIZE := by
  refine ⟨(a - addr) / PAGE_SIZE, ?_, ?_⟩
  · simp only [PAGE_SIZE_eq] at *
    omega
  · simp only [page_number_eq_div, PAGE_SIZE_eq] at *
    omega

theorem page_number_le (a : Nat) : page_number a ≤ a := by
  have := page_number_add_offset a
  omega

/-! ## Allocator characterization -/

/-- `allocate` is deterministic: it returns exactly the lowest free
slot (the bitmap's length itself — an append — when every bit is set). -/
theorem allocate_returns_minfree (p : PageFrames) (pfn : Nat)
    (hlenp : p.frames.length = p.allocation_bitmap.length)
    (hfree : p.allocation_bitmap.getD pfn false = false)
    (hbelow : ∀ q, q < pfn → p.allocation_bitmap.getD q false = true)
    (hub : pfn ≤ p.allocation_bitmap.length) :
    (p.allocate).2 = pfn := by
  rw [PageFrames.allocate]
  rcases Nat.lt_or_ge pfn p.allocation_bitmap.length with hlt | hge
  · have h2 : p.allocation_bitmap[pfn] = false := by
      have := hfree
      rw [List.getD_eq_getElem?_getD, List.getElem?_eq_getElem hlt] at this
      simpa using this
    have hfind : p.allocation_bitmap.findIdx? (fun b => !b) = some pfn := by
      rw [List.findIdx?_eq_some_iff_getElem]
      refine ⟨hlt, by simp [h2], ?_⟩
      intro j hj
      have := hbelow j hj
      rw [List.getD_eq_getElem?_getD, List.getElem?_eq_getElem (by omega)] at this
      simp only [Option.getD_some] at this
      simp [this]
    rw [hfind]
  · have hpfn : pfn = p.allocation_bitmap.length := by omega
    have hfind : p.allocation_bitmap.findIdx? (fun b => !b) = none := by
      rw [List.findIdx?_eq_none_iff]
      intro x hx
      rw [List.mem_iff_getElem] at hx
      obtain ⟨j, hj, rfl⟩ := hx
      have := hbelow j (by omega)
      rw [List.getD_eq_getElem?_getD, List.getElem?_eq_getElem hj] at this
      simp only [Option.getD_some] at this
      simp [this]
    rw [hfind]
    show p.frames.length = pfn
    omega

/-- on a well-formed pool, the slot `allocate` hands out is entirely
zero (free slots are zero, and an appended frame is the empty page). -/
theorem allocate_zero (p : PageFrames) (hWF : p.WFpool) :
    ∀ j, (p.allocate).1.get (p.allocate).2 j = 0 := by
  intro j
  rw [PageFrames.allocate]
  rcases hcase : p.allocation_bitmap.findIdx? (fun b => !b) with _ | i
  · show (p.frames ++ [EMPTY_PAGE]).getD p.frames.length EMPTY_PAGE j = 0
    rw [getD_append_last]
    rfl
  · rw [List.findIdx?_eq_some_iff_getElem] at hcase
    obtain ⟨hi, hpi, _⟩ := hcase
    have hfalse : p.allocation_bitmap.getD i false = false := by
      rw [List.getD_eq_getElem?_getD, List.getElem?_eq_getElem hi]
      simpa using hpi
    show p.frames.getD i EMPTY_PAGE j = 0
    rcases Nat.lt_or_ge i p.frames.length with h' | h'
    · exact hWF.2 i h' hfalse j
    · rw [getD_oob _ _ _ h']
      rfl

/-! ## The claims -/

/-- C2: `mmap` failure atomicity.  If page `addr + i * PAGE_SIZE` of the
page-aligned range is already mapped and no earlier page of the range
is, `mmap` returns `AddressAlreadyMapped` carrying that first (lowest-
address) conflicting page and the entire state — mapping table and
frame pool — unchanged.  If no page of the range is mapped, it succeeds
without touching the frame pool, inserts every page of the range as
`(INVALID_PFN, ZERO ||| perms)` and leaves every other key's entry
unchanged. -/
theorem C2_mmap_atomicity (m : MMU) (addr size perms i : Nat) :
    (i < size / PAGE_SIZE →
      (btreeLookup m.mapping (addr + i * PAGE_SIZE)).isSome = true →
      (∀ j, j < i → btreeLookup m.mapping (addr + j * PAGE_SIZE) = none) →
      m.mmap addr size perms
        = (m, some (.AddressAlreadyMapped (addr + i * PAGE_SIZE)))) ∧
    ((∀ j, j < size / PAGE_SIZE →
        btreeLookup m.mapping (addr + j * PAGE_SIZE) = none) →
      (m.mmap addr size perms).2 = none ∧
      (m.mmap addr size perms).1.pages = m.pages ∧
      (∀ j, j < size / PAGE_SIZE →
        btreeLookup (m.mmap addr size perms).1.mapping (addr + j * PAGE_SIZE)
          = some (INVALID_PFN,
              PageFlags.ZERO ||| PageFlags.from_bits_truncate perms)) ∧
      (∀ k, (∀ j, j < size / PAGE_SIZE → k ≠ addr + j * PAGE_SIZE) →
        btreeLookup (m.mmap addr size perms).1.mapping k
          = btreeLookup m.mapping k)) := by
  constructor
  · intro hi hc hmin
    exact mmap_conflict m addr size perms i hi hc hmin
  · intro hall
    have hs := mmap_success m addr size perms hall
    refine ⟨by rw [hs], by rw [hs], ?_, ?_⟩
    · intro j hj
      rw [hs]
      exact mapPages_lookup_in _ addr _ m.mapping j hj
    · intro k hk
      rw [hs]
      exact mapPages_lookup_out _ addr _ m.mapping k hk

/-- C2 witness: a second `mmap` overlapping `[0x1000, 0x3000)` at
`0x2000` fails with that page and changes nothing; a disjoint `mmap`
succeeds and installs the lazy-zero entry `(INVALID_PFN, ZERO | RW)` =
`(INVALID_PFN, 11)`. -/
theorem C2_mmap_atomicity_witness :
    ((MMU.empty.mmap 0x1000 0x2000 1).1.mmap 0x2000 0x2000 3
      = ((MMU.empty.mmap 0x1000 0x2000 1).1,
         some (.AddressAlreadyMapped 0x2000))) ∧
    (MMU.empty.mmap 0x3000 0x1000 3).2 = none ∧
    btreeLookup (MMU.empty.mmap 0x3000 0x1000 3).1.mapping 0x3000
      = some (INVALID_PFN, 11) := by
  have h1 := (C2_mmap_atomicity (MMU.empty.mmap 0x1000 0x2000 1).1
      0x2000 0x2000 3 0).1 (by decide) (by decide)
      (fun j hj => absurd hj (by omega))
  have h2 := (C2_mmap_atomicity MMU.empty 0x3000 0x1000 3 0).2 (by decide)
  have h3 := h2.2.2.1 0 (by decide)
  exact ⟨h1, h2.1, h3⟩

/-- C3: `munmap` two-phase behaviour.  If page `addr + i * PAGE_SIZE` of
the range is unmapped and every earlier page of the range is mapped,
`munmap` returns `AddressNotMapped` carrying that first missing page and
mutates nothing.  If every page of the range is mapped, it succeeds,
removes exactly the entries of the range, clears the allocation bit of
every frame owned by a removed non-`ZERO` entry, and leaves every
allocation bit not owned by such an entry unchanged (in particular a
removed lazy-zero entry frees nothing). -/
theorem C3_munmap_two_phase (m : MMU) (addr size i : Nat) (hWF : m.WF) :
    (i < size / PAGE_SIZE →
      btreeLookup m.mapping (addr + i * PAGE_SIZE) = none →
      (∀ j, j < i → (btreeLookup m.mapping (addr + j * PAGE_SIZE)).isSome = true) →
      m.munmap addr size = (m, some (.AddressNotMapped (addr + i * PAGE_SIZE)))) ∧
    ((∀ j, j < size / PAGE_SIZE →
        (btreeLookup m.mapping (addr + j * PAGE_SIZE)).isSome = true) →
      (m.munmap addr size).2 = none ∧
      (∀ j, j < size / PAGE_SIZE →
        btreeLookup (m.munmap addr size).1.mapping (addr + j * PAGE_SIZE) = none) ∧
      (∀ k, (∀ j, j < size / PAGE_SIZE → k ≠ addr + j * PAGE_SIZE) →
        btreeLookup (m.munmap addr size).1.mapping k = btreeLookup m.mapping k) ∧
      (∀ j pfn fl, j < size / PAGE_SIZE →
        btreeLookup m.mapping (addr + j * PAGE_SIZE) = some (pfn, fl) →
        PageFlags.intersects fl PageFlags.ZERO = false →
        (m.munmap addr size).1.pages.allocation_bitmap.getD pfn false = false) ∧
      (∀ q, (∀ j pfn fl, j < size / PAGE_SIZE →
          btreeLookup m.mapping (addr + j * PAGE_SIZE) = some (pfn, fl) →
          PageFlags.intersects fl PageFlags.ZERO = false → q ≠ pfn) →
        (m.munmap addr size).1.pages.allocation_bitmap.getD q false
          = m.pages.allocation_bitmap.getD q false)) := by
  constructor
  · intro hi hc hmin
    exact munmap_missing m addr size i hi hc hmin
  · intro hall
    have hs := munmap_success_eq m addr size hall
    obtain ⟨_, hnone, hother, _, _, hfreed, hunch⟩ :=
      unmapPages_spec (size / PAGE_SIZE) addr m hWF hall
    refine ⟨by rw [hs], ?_, ?_, ?_, ?_⟩
    · intro j hj
      rw [hs]
      exact hnone j hj
    · intro k hk
      rw [hs]
      exact hother k hk
    · intro j pfn fl hj hlkj hzj
      rw [hs]
      exact (hfreed j pfn fl hj hlkj hzj).1
    · intro q hq
      rw [hs]
      exact (hunch q hq).1

/-- C3 witness: unmapping `[0x1000, 0x4000)` when only `[0x1000,
0x3000)` is mapped fails with the first missing page `0x3000` and
changes nothing; unmapping exactly `[0x1000, 0x3000)` succeeds and
removes the entry at `0x1000`. -/
theorem C3_munmap_two_phase_witness :
    ((MMU.empty.mmap 0x1000 0x2000 3).1.munmap 0x1000 0x3000
      = ((MMU.empty.mmap 0x1000 0x2000 3).1,
         some (.AddressNotMapped 0x3000))) ∧
    ((MMU.empty.mmap 0x1000 0x2000 3).1.munmap 0x1000 0x2000).2 = none ∧
    btreeLookup
      ((MMU.empty.mmap 0x1000 0x2000 3).1.munmap 0x1000 0x2000).1.mapping
      0x1000 = none := by
  have h1 := (C3_munmap_two_phase (MMU.empty.mmap 0x1000 0x2000 3).1
      0x1000 0x3000 2 (by decide)).1 (by decide) (by decide) (by decide)
  have h2 := (C3_munmap_two_phase (MMU.empty.mmap 0x1000 0x2000 3).1
      0x1000 0x2000 0 (by decide)).2 (by decide)
  have h3 := h2.2.1 0 (by decide)
  exact ⟨h1, h2.1, h3⟩

/-- C8: the claimed state invariant — `ZERO` entries carry the sentinel
PFN, entries with neither `ZERO` nor `COW` own an allocated in-range
pool slot exclusively, and the frame vector and allocation bitmap have
equal length — holds in every state reachable from the empty MMU
through the public operations (`mmap`, `munmap` and the writes; the
reads return no state). -/
theorem C8_invariant (m : MMU) (h : Reachable m) : m.Inv :=
  WF_Inv (Reachable_WF h)

/-- C8 witness: the invariant holds concretely after `mmap` of
`[0x1000, 0x3000)` followed by a materializing one-byte write. -/
theorem C8_invariant_witness :
    (((MMU.empty.mmap 0x1000 0x2000 3).1.write 0x1234 [5]).1).Inv := by
  exact C8_invariant _
    (Reachable.write _ _ _
      (Reachable.mmap _ _ _ _ Reachable.empty rfl rfl (by decide) (by decide))
      (by decide))

/-- C9: frame-pool determinism and reuse.  On a well-formed pool,
`allocate` hands out the lowest-indexed free slot — every lower slot is
allocated, the returned slot was free (appending exactly when every bit
was set) and is now allocated — and its contents are entirely zero;
`deallocate` zeroes the frame and clears its bit; and re-allocating
right after deallocating the slot just obtained returns the same index
with zero contents. -/
theorem C9_frame_pool (p p' : PageFrames) (pfn : Nat)
    (hWF : p.WFpool) (h : p.allocate = (p', pfn)) :
    (∀ q, q < pfn → p.allocation_bitmap.getD q false = true) ∧
    p.allocation_bitmap.getD pfn false = false ∧
    p'.allocation_bitmap.getD pfn false = true ∧
    (∀ j, p'.get pfn j = 0) ∧
    (pfn < p.allocation_bitmap.length ∨
      ((∀ b ∈ p.allocation_bitmap, b = true) ∧
        pfn = p.allocation_bitmap.length)) ∧
    (p'.deallocate pfn).allocation_bitmap.getD pfn false = false ∧
    (∀ j, (p'.deallocate pfn).get pfn j = 0) ∧
    ((p'.deallocate pfn).allocate).2 = pfn ∧
    (∀ j, ((p'.deallocate pfn).allocate).1.get pfn j = 0) := by
  have hlenp : p.frames.length = p.allocation_bitmap.length := hWF.1
  obtain ⟨alen, amono, apfnlt, aoldbit, anewbit, abitne, agetne, acount⟩ :=
    allocate_spec p hlenp p' pfn h
  -- minimality and the append condition, from the `findIdx?` scan
  have hminapp : (∀ q, q < pfn → p.allocation_bitmap.getD q false = true) ∧
      (pfn < p.allocation_bitmap.length ∨
        ((∀ b ∈ p.allocation_bitmap, b = true) ∧
          pfn = p.allocation_bitmap.length)) := by
    have h' := h
    rw [PageFrames.allocate] at h'
    rcases hcase : p.allocation_bitmap.findIdx? (fun b => !b) with _ | i
    · rw [hcase] at h'
      cases h'
      rw [List.findIdx?_eq_none_iff] at hcase
      have hall : ∀ b ∈ p.allocation_bitmap, b = true := by
        intro b hb
        have := hcase b hb
        simpa using this
      refine ⟨?_, Or.inr ⟨hall, hlenp⟩⟩
      intro q hq
      rw [hlenp] at hq
      have hqlt : q < p.allocation_bitmap.length := hq
      rw [List.getD_eq_getElem?_getD, List.getElem?_eq_getElem hqlt]
      exact hall _ (List.getElem_mem _)
    · rw [hcase] at h'
      cases h'
      rw [List.findIdx?_eq_some_iff_getElem] at hcase
      obtain ⟨hi, _, hmin⟩ := hcase
      refine ⟨?_, Or.inl hi⟩
      intro q hq
      have := hmin q hq
      rw [List.getD_eq_getElem?_getD, List.getElem?_eq_getElem (by omega)]
      simpa using this
  -- the slot handed out is zero (free slots of a well-formed pool are zero)
  have hz1 : ∀ j, p'.get pfn j = 0 := by
    intro j
    have := allocate_zero p hWF j
    rw [h] at this
    exact this
  -- the pool after `deallocate pfn` is well-formed with `pfn` minimal free
  obtain ⟨dlen, dblen, dbit, dzero, dbitne, dgetne, _⟩ := deallocate_spec p' pfn
  have hbelow'' : ∀ q, q < pfn →
      (p'.deallocate pfn).allocation_bitmap.getD q false = true := by
    intro q hq
    rw [dbitne q (by omega), abitne q (by omega)]
    exact hminapp.1 q hq
  have hub'' : pfn ≤ (p'.deallocate pfn).allocation_bitmap.length := by
    rw [dblen]
    omega
  have hlen'' : (p'.deallocate pfn).frames.length
      = (p'.deallocate pfn).allocation_bitmap.length := by
    rw [dlen, dblen]
    exact alen
  have halloc2 : ((p'.deallocate pfn).allocate).2 = pfn :=
    allocate_returns_minfree _ pfn hlen'' dbit hbelow'' hub''
  -- the deallocated pool is well-formed, so the re-allocated slot is zero
  have hWF'' : (p'.deallocate pfn).WFpool := by
    refine ⟨hlen'', ?_⟩
    intro q hq hbq j
    by_cases hqp : q = pfn
    · subst hqp
      exact dzero j
    · rw [dgetne q hqp, agetne q hqp]
      rw [dbitne q hqp, abitne q hqp] at hbq
      rcases Nat.lt_or_ge q p.frames.length with h' | h'
      · exact hWF.2 q h' hbq j
      · rw [PageFrames.get, getD_oob _ _ _ h']
        rfl
  have hz2 : ∀ j, ((p'.deallocate pfn).allocate).1.get pfn j = 0 := by
    intro j
    have := allocate_zero _ hWF'' j
    rw [halloc2] at this
    exact this
  exact ⟨hminapp.1, aoldbit, anewbit, hz1, hminapp.2, dbit, dzero, halloc2, hz2⟩

/-- C9 witness: on the empty pool, allocate/deallocate/allocate returns
index 0 both times with zero contents. -/
theorem C9_frame_pool_witness :
    PageFrames.empty.allocate.2 = 0 ∧
    ((PageFrames.empty.allocate.1.deallocate 0).allocate).2 = 0 ∧
    ∀ j, ((PageFrames.empty.allocate.1.deallocate 0).allocate).1.get 0 j = 0 := by
  have h := C9_frame_pool PageFrames.empty PageFrames.empty.allocate.1 0
    ⟨rfl, fun i hi => by simp [PageFrames.empty] at hi⟩ rfl
  exact ⟨rfl, h.2.2.2.2.2.2.2.1, h.2.2.2.2.2.2.2.2⟩

/-- C6 (amended): single-page read.  The single-probe path is taken
exactly when `page_number addr = page_number (addr + len)` — the
one-past-end address must lie on the same page, not merely the byte
range `[addr, addr + len)` — and then exactly the containing page is
probed: the read succeeds whenever that page is mapped and readable,
regardless of any neighbouring page, returning `len` zero bytes for a
`ZERO` page (no pool access) and the matching byte range of the owning
frame otherwise. -/
theorem C6_single_page_read (m : MMU) (addr len pfn fl : Nat)
    (hsame : page_number addr = page_number (addr + len)) :
    (btreeLookup m.mapping (page_number addr) = none →
      m.read addr len = .error (.AddressNotMapped addr)) ∧
    (btreeLookup m.mapping (page_number addr) = some (pfn, fl) →
      (PageFlags.intersects fl PageFlags.PERM_R = false →
        m.read addr len = .error (.AddressNotReadable addr)) ∧
      (PageFlags.intersects fl PageFlags.PERM_R = true →
        m.read addr len =
          .ok (if PageFlags.intersects fl PageFlags.ZERO = true
               then List.replicate len 0
               else readRange (m.pages.get pfn) (page_offset addr) len))) := by
  have hnsp : ¬ page_number addr ≠ page_number (addr + len) := fun hc => hc hsame
  constructor
  · intro hnone
    rw [MMU.read, if_neg hnsp]
    simp only [probe_read_not_mapped m addr hnone]
  · intro hlk
    constructor
    · intro hR
      rw [MMU.read, if_neg hnsp]
      simp only [probe_read_not_readable m addr pfn fl hlk hR]
    · intro hR
      rw [MMU.read, if_neg hnsp]
      simp only [probe_read_ok m addr pfn fl hlk hR]
      rcases hz : PageFlags.intersects fl PageFlags.ZERO with _ | _
      · rw [if_neg (by simp), if_neg (by simp)]
      · rw [if_pos rfl, if_pos rfl]

/-- C6 counterexample to the claim as stated: the one-byte range
`[0x1FFF, 0x2000)` stays entirely within page `0x1000`, which is mapped
readable, yet the read takes the split path, probes the unmapped
following page `0x2000` and fails — the read does not succeed "whenever
that page is mapped and readable". -/
theorem C6_single_page_read_counterexample :
    btreeLookup (MMU.empty.mmap 0x1000 0x1000 3).1.mapping 0x1000
      = some (INVALID_PFN, 11) ∧
    PageFlags.intersects 11 PageFlags.PERM_R = true ∧
    page_number 0x1FFF = 0x1000 ∧
    (MMU.empty.mmap 0x1000 0x1000 3).1.read 0x1FFF 1
      = .error (.AddressNotMapped 0x2000) :=
  ⟨rfl, rfl, rfl, rfl⟩

/-- C6 witness: a 16-byte read inside the lazy-zero page at `0x5000`
returns 16 zero bytes. -/
theorem C6_single_page_read_witness :
    (MMU.empty.mmap 0x5000 0x1000 3).1.read 0x5100 16
      = .ok (List.replicate 16 0) := by
  have h := C6_single_page_read (MMU.empty.mmap 0x5000 0x1000 3).1
    0x5100 16 INVALID_PFN 11 rfl
  have h2 := (h.2 (by decide)).2 rfl
  exact h2

/-- C7 (amended): map-success postcondition.  After a successful
`mmap(addr, size, perms)` no physical frame has been consumed, every
byte of the range whose one-byte access stays inside the mapped range
(`a + 1 < addr + size`; the very last byte's read also probes the
following page, which here is outside the range) reads back zero when
`perms` include READ, every read in the range fails with
`AddressNotReadable` without READ, and every write in the range fails
with `AddressNotWritable` (mutating nothing) without WRITE. -/
theorem C7_map_success_postcondition (m : MMU) (addr size perms : Nat)
    (ha : is_page_aligned addr = true) (hs : is_page_aligned size = true)
    (hperm : perms < 8)
    (hall : ∀ i, i < size / PAGE_SIZE →
      btreeLookup m.mapping (addr + i * PAGE_SIZE) = none) :
    (m.mmap addr size perms).2 = none ∧
    (m.mmap addr size perms).1.pages = m.pages ∧
    (perms &&& 1 = 1 → ∀ a, addr ≤ a → a + 1 < addr + size →
      (m.mmap addr size perms).1.read_u8 a = .ok 0) ∧
    (perms &&& 1 = 0 → ∀ a, addr ≤ a → a < addr + size →
      (m.mmap addr size perms).1.read_u8 a = .error (.AddressNotReadable a)) ∧
    (perms &&& 2 = 0 → ∀ a v, addr ≤ a → a < addr + size →
      (m.mmap addr size perms).1.write_u8 a v
        = ((m.mmap addr size perms).1, some (.AddressNotWritable a))) := by
  have ha' : addr % PAGE_SIZE = 0 := (is_page_aligned_iff addr).mp ha
  have hs' : size % PAGE_SIZE = 0 := (is_page_aligned_iff size).mp hs
  have hm := mmap_success m addr size perms hall
  set flags0 : Nat := PageFlags.ZERO ||| PageFlags.from_bits_truncate perms
    with hflags0
  set m' : MMU := (m.mmap addr size perms).1 with hm'
  have hmap : m'.mapping = mapPages flags0 addr (size / PAGE_SIZE) m.mapping := by
    rw [hm', hm]
  have hlkin : ∀ i, i < size / PAGE_SIZE →
      btreeLookup m'.mapping (addr + i * PAGE_SIZE) = some (INVALID_PFN, flags0) := by
    intro i hi
    rw [hmap]
    exact mapPages_lookup_in _ addr _ m.mapping i hi
  have hzero : PageFlags.intersects flags0 PageFlags.ZERO = true :=
    mmap_flags_zero perms hperm
  -- the containing page of any in-range byte carries the fresh entry
  have hlkat : ∀ a, addr ≤ a → a < addr + size →
      btreeLookup m'.mapping (page_number a) = some (INVALID_PFN, flags0) := by
    intro a h1 h2
    obtain ⟨i, hi, hpa⟩ := page_number_range_idx addr size a ha' hs' h1 h2
    rw [hpa]
    exact hlkin i hi
  refine ⟨by rw [hm], by rw [hm']; exact mmap_pages_eq m addr size perms,
    ?_, ?_, ?_⟩
  · -- reads of in-range bytes (not touching the top boundary) are zero
    intro hrbit a h1 h2
    have hR : PageFlags.intersects flags0 PageFlags.PERM_R = true :=
      mmap_flags_r_yes perms hperm hrbit
    have hlk1 := hlkat a h1 (by omega)
    have h2fun : ∀ pn2, page_number a ≠ page_number (a + 1) →
        pn2 = page_number a + PAGE_SIZE →
        ∃ pfn2 fl2, btreeLookup m'.mapping pn2 = some (pfn2, fl2) ∧
          PageFlags.intersects fl2 PageFlags.PERM_R = true := by
      intro pn2 hsp hpn2
      have hoff := (split_iff a 1).mp hsp
      have hda := page_number_add_offset a
      have hoa := page_offset_lt a
      have hpn2' : pn2 = a + 1 := by omega
      have hlk2 := hlkat (a + 1) (by omega) (by omega)
      have hpa1 : page_number (a + 1) = a + 1 := by
        apply page_number_aligned
        simp only [page_offset_eq_mod, PAGE_SIZE_eq] at hoff hoa ⊢
        omega
      rw [hpa1] at hlk2
      exact ⟨INVALID_PFN, flags0, by rw [hpn2']; exact hlk2, hR⟩
    have hread := read_spec m' a 1 INVALID_PFN flags0
      (by rw [PAGE_SIZE_eq]; omega) hlk1 hR h2fun
    have hbyte : m'.byteAt a = 0 := by
      simp only [MMU.byteAt, hlk1, hzero, if_true]
    have hlist : (List.range 1).map (fun i => m'.byteAt (a + i)) = [0] := by
      simp [List.range_succ, hbyte]
    rw [MMU.read_u8, MMU.read_uint, hread, hlist]
    rfl
  · -- without READ, reads fail
    intro hrbit a h1 h2
    have hRno : PageFlags.intersects flags0 PageFlags.PERM_R = false :=
      mmap_flags_r_no perms hperm hrbit
    have hprobe := probe_read_not_readable m' a INVALID_PFN flags0
      (hlkat a h1 h2) hRno
    rw [MMU.read_u8, MMU.read_uint, read_probe_err m' a 1 _ hprobe]
    rfl
  · -- without WRITE, writes fail and mutate nothing
    intro hwbit a v h1 h2
    have hWno : PageFlags.intersects flags0 PageFlags.PERM_W = false :=
      mmap_flags_w_no perms hperm hwbit
    have hprobe := probe_write_not_writable m' a INVALID_PFN flags0
      (hlkat a h1 h2) hWno
    rw [MMU.write_u8, MMU.write_uint]
    exact write_probe_err m' a (leEncode 1 v) _ hprobe

/-- C7 counterexample to the claim as stated: after a successful
`map(0x4000, 0x1000, R)` the last byte of the range does not read back
— its one-byte read also probes the following unmapped page `0x5000`
and fails — so "every page in range reads back as all-zero bytes" fails
at the range's final byte. -/
theorem C7_map_success_postcondition_counterexample :
    (MMU.empty.mmap 0x4000 0x1000 1).2 = none ∧
    (MMU.empty.mmap 0x4000 0x1000 1).1.read_u8 0x4FFF
      = .error (.AddressNotMapped 0x5000) :=
  ⟨rfl, rfl⟩

/-- C7 witness: after `map(0x1000, 0x1000, R)`, the byte at `0x1800`
reads back zero, and a write there fails with `AddressNotWritable`
without changing the state. -/
theorem C7_map_success_postcondition_witness :
    (MMU.empty.mmap 0x1000 0x1000 1).2 = none ∧
    (MMU.empty.mmap 0x1000 0x1000 1).1.read_u8 0x1800 = .ok 0 ∧
    (MMU.empty.mmap 0x1000 0x1000 1).1.write_u8 0x1800 7
      = ((MMU.empty.mmap 0x1000 0x1000 1).1,
         some (.AddressNotWritable 0x1800)) := by
  have h := C7_map_success_postcondition MMU.empty 0x1000 0x1000 1
    rfl rfl (by decide) (by decide)
  exact ⟨h.1, h.2.2.1 rfl 0x1800 (by omega) (by omega),
    h.2.2.2.2 rfl 0x1800 7 (by omega) (by omega)⟩

set_option maxHeartbeats 1000000 in
/-- C10: boundary-touching writes probe the following page.  For every
non-empty `buf` with `addr + buf.length` page-aligned (in particular
every `write_page` call, which is plain `write`), the write takes the
split path with an empty second half: the next page
`addr + buf.length` is probed for writability, so the write fails with
`AddressNotMapped`/`AddressNotWritable` when that page is absent or
non-writable even though every written byte lies in the first page, and
when it is a writable `ZERO`/`COW` page a fresh frame is materialized
for it — its entry is rewritten to the materialized flags, the new
frame's bit is set, and the pool's allocation count grows by one beyond
the first page's own materialization — although zero bytes of it are
written. -/
theorem C10_boundary_write (m : MMU) (addr : Nat) (buf : List Nat)
    (pfn1 fl1 : Nat) (hWF : m.WF)
    (hpos : 0 < buf.length) (hlen : buf.length ≤ PAGE_SIZE)
    (hal : is_page_aligned (addr + buf.length) = true)
    (h1 : btreeLookup m.mapping (page_number addr) = some (pfn1, fl1))
    (hW1 : PageFlags.intersects fl1 PageFlags.PERM_W = true) :
    m.write_page addr buf = m.write addr buf ∧
    page_number addr ≠ page_number (addr + buf.length) ∧
    page_number addr + PAGE_SIZE = addr + buf.length ∧
    (btreeLookup m.mapping (addr + buf.length) = none →
      (m.write addr buf).2 = some (.AddressNotMapped (addr + buf.length))) ∧
    (∀ pfn2 fl2,
      btreeLookup m.mapping (addr + buf.length) = some (pfn2, fl2) →
      (PageFlags.intersects fl2 PageFlags.PERM_W = false →
        (m.write addr buf).2
          = some (.AddressNotWritable (addr + buf.length))) ∧
      (PageFlags.intersects fl2 PageFlags.PERM_W = true →
        (PageFlags.intersects fl2 PageFlags.ZERO
          || PageFlags.intersects fl2 PageFlags.COW) = true →
        (m.write addr buf).2 = none ∧
        (∃ pfn2', btreeLookup (m.write addr buf).1.mapping (addr + buf.length)
            = some (pfn2', PageFlags.materialize fl2) ∧
          (m.write addr buf).1.pages.allocation_bitmap.getD pfn2' false
            = true) ∧
        (m.write addr buf).1.pages.allocCount
          = m.pages.allocCount
            + (if (PageFlags.intersects fl1 PageFlags.ZERO
                   || PageFlags.intersects fl1 PageFlags.COW) = true
               then 1 else 0) + 1)) := by
  have halm : (addr + buf.length) % PAGE_SIZE = 0 := (is_page_aligned_iff _).mp hal
  have hda := page_number_add_offset addr
  have hoa := page_offset_lt addr
  have hoffeq : page_offset addr + buf.length = PAGE_SIZE := by
    simp only [page_offset_eq_mod, PAGE_SIZE_eq] at *
    omega
  have hsp : page_number addr ≠ page_number (addr + buf.length) :=
    (split_iff addr buf.length).mpr (by omega)
  have hnext2 : page_number addr + PAGE_SIZE = addr + buf.length := by omega
  have hnext := next_page_eq addr
  obtain ⟨m1, pfn1', heq1, hWF1, hlk1, hlkO1, hlt1, hbit1, hget1, hbyte1,
    hcount1, hmono1, hother1⟩ := probe_write_spec m addr pfn1 fl1 hWF h1 hW1
  set wr1 : PageFrame := writeRange (m1.pages.get pfn1') (page_offset addr)
      (buf.take (PAGE_SIZE - page_offset addr)) with hwr1
  set m2 : MMU := m1.setFrame pfn1' wr1 with hm2
  have hWF2 : m2.WF := WF_setFrame hWF1 _ _
  have hm2map : m2.mapping = m1.mapping := rfl
  have hm2count : m2.pages.allocCount = m1.pages.allocCount := by
    rw [hm2]
    exact (setFrame_spec m1.pages pfn1' wr1).2.2.1
  have hPne : page_number addr + PAGE_SIZE ≠ page_number addr := by
    rw [PAGE_SIZE_eq]
    omega
  have hnextpn : page_number (addr + (PAGE_SIZE - page_offset addr))
      = page_number addr + PAGE_SIZE := by
    rw [hnext, page_number_next]
  have hlk2gen : btreeLookup m2.mapping
      (page_number (addr + (PAGE_SIZE - page_offset addr)))
      = btreeLookup m.mapping (addr + buf.length) := by
    rw [hm2map, hnextpn, hlkO1 _ hPne, hnext2]
  refine ⟨rfl, hsp, hnext2, ?_, ?_⟩
  · -- the following page is unmapped: the write faults on it
    intro hnone
    have heq2 : m2.probe_write (addr + (PAGE_SIZE - page_offset addr))
        = .error (.AddressNotMapped (addr + (PAGE_SIZE - page_offset addr))) := by
      apply probe_write_not_mapped
      rw [hlk2gen]
      exact hnone
    have hw : m.write addr buf
        = (m2, some (.AddressNotMapped (addr + (PAGE_SIZE - page_offset addr)))) := by
      rw [MMU.write, if_pos hsp]
      simp only [heq1, heq2]
    rw [hw]
    show some _ = some _
    rw [hnext]
    rw [hnext2]
  · intro pfn2 fl2 hlk2
    have hlk2' : btreeLookup m2.mapping
        (page_number (addr + (PAGE_SIZE - page_offset addr)))
        = some (pfn2, fl2) := by
      rw [hlk2gen]
      exact hlk2
    constructor
    · -- the following page is not writable: the write faults on it
      intro hW2no
      have heq2 : m2.probe_write (addr + (PAGE_SIZE - page_offset addr))
          = .error (.AddressNotWritable (addr + (PAGE_SIZE - page_offset addr))) :=
        probe_write_not_writable _ _ pfn2 fl2 hlk2' hW2no
      have hw : m.write addr buf
          = (m2, some (.AddressNotWritable (addr + (PAGE_SIZE - page_offset addr)))) := by
        rw [MMU.write, if_pos hsp]
        simp only [heq1, heq2]
      rw [hw]
      show some _ = some _
      rw [hnext]
      rw [hnext2]
    · -- the following writable ZERO/COW page is materialized for nothing
      intro hW2 hzc2
      obtain ⟨m3, pfn2', heq3, hWF3, hlk3, hlkO3, hlt3, hbit3, hget3, hbyte3,
        hcount3, hmono3, hother3⟩ :=
        probe_write_spec m2 (addr + (PAGE_SIZE - page_offset addr)) pfn2 fl2
          hWF2 hlk2' hW2
      set wr2 : PageFrame := writeRange (m3.pages.get pfn2') 0
          (buf.drop (PAGE_SIZE - page_offset addr)) with hwr2
      set m4 : MMU := m3.setFrame pfn2' wr2 with hm4
      have hw : m.write addr buf = (m4, none) := by
        rw [MMU.write, if_pos hsp]
        simp only [heq1, heq3]
      have hm4map : m4.mapping = m3.mapping := rfl
      have hm4bitmap : m4.pages.allocation_bitmap = m3.pages.allocation_bitmap := by
        rw [hm4]
        exact (setFrame_spec m3.pages pfn2' wr2).2.1
      have hm4count : m4.pages.allocCount = m3.pages.allocCount := by
        rw [hm4]
        exact (setFrame_spec m3.pages pfn2' wr2).2.2.1
      rw [hw]
      refine ⟨rfl, ⟨pfn2', ?_, ?_⟩, ?_⟩
      · show btreeLookup m4.mapping (addr + buf.length)
          = some (pfn2', PageFlags.materialize fl2)
        rw [hm4map, ← hnext2, ← hnextpn]
        exact hlk3
      · show m4.pages.allocation_bitmap.getD pfn2' false = true
        rw [hm4bitmap]
        exact hbit3
      · show m4.pages.allocCount = _
        rw [hm4count, hcount3, if_pos hzc2, hm2count, hcount1]

/-- C10 witness: writing the single byte `[7]` at `0x1FFF` — ending
exactly on the `0x2000` boundary, with both pages freshly mapped
lazy-zero RW — succeeds and materializes two frames: one for the
written first page and one for the second page although none of its
bytes are written. -/
theorem C10_boundary_write_witness :
    ((MMU.empty.mmap 0x1000 0x2000 3).1.write 0x1FFF [7]).2 = none ∧
    ((MMU.empty.mmap 0x1000 0x2000 3).1.write 0x1FFF [7]).1.pages.allocCount
      = 2 := by
  have h := C10_boundary_write (MMU.empty.mmap 0x1000 0x2000 3).1 0x1FFF
    [7] INVALID_PFN 11 (by decide)
    (by decide) (by decide) (by decide) (by decide) rfl
  have h2 := (h.2.2.2.2 INVALID_PFN 11 (by decide)).2 rfl rfl
  exact ⟨h2.1, h2.2.2⟩

/-- C4: materialization.  For a mapped writable page whose flags have
`ZERO` or `COW` set (flags fit in 5 bits; pool lengths agree, both part
of `WF`), `probe_write` allocates a fresh frame (its bit was clear and
is now set, the count grows by exactly one), fills it with the snapshot
contents (all zeros for `ZERO`, a copy of the old frame for `COW`),
rewrites the entry in place to the new PFN with `ZERO`/`COW` cleared
and the permission bits preserved, and touches no other entry.  A
second `probe_write` of the same page is a no-op returning the same
state and entry.  A single-page `write` through this page allocates
exactly this one frame, and `mmap`/`munmap` never allocate — `mmap`
leaves the pool untouched and `munmap` never increases the count. -/
theorem C4_materialization (m : MMU) (addr pfn fl : Nat)
    (hlen : m.pages.frames.length = m.pages.allocation_bitmap.length)
    (hfl : fl < 32)
    (hlk : btreeLookup m.mapping (page_number addr) = some (pfn, fl))
    (hW : PageFlags.intersects fl PageFlags.PERM_W = true)
    (hzc : (PageFlags.intersects fl PageFlags.ZERO
            || PageFlags.intersects fl PageFlags.COW) = true) :
    ∃ m' pfn',
      m.probe_write addr = .ok (m', pfn', PageFlags.materialize fl) ∧
      m.pages.allocation_bitmap.getD pfn' false = false ∧
      m'.pages.allocation_bitmap.getD pfn' false = true ∧
      (∀ j, m'.pages.get pfn' j =
        if PageFlags.intersects fl PageFlags.ZERO = true then 0
        else m.pages.get pfn j) ∧
      btreeLookup m'.mapping (page_number addr)
        = some (pfn', PageFlags.materialize fl) ∧
      (∀ k, k ≠ page_number addr →
        btreeLookup m'.mapping k = btreeLookup m.mapping k) ∧
      PageFlags.intersects (PageFlags.materialize fl) PageFlags.ZERO = false ∧
      PageFlags.intersects (PageFlags.materialize fl) PageFlags.COW = false ∧
      PageFlags.materialize fl &&& 7 = fl &&& 7 ∧
      m'.pages.allocCount = m.pages.allocCount + 1 ∧
      m'.probe_write addr = .ok (m', pfn', PageFlags.materialize fl) ∧
      (∀ buf : List Nat, page_number addr = page_number (addr + buf.length) →
        (m.write addr buf).1.pages.allocCount = m.pages.allocCount + 1) ∧
      (∀ (m0 : MMU) (a s p : Nat), (m0.mmap a s p).1.pages = m0.pages) ∧
      (∀ (m0 : MMU) (a s : Nat),
        (m0.munmap a s).1.pages.allocCount ≤ m0.pages.allocCount) := by
  have heq := probe_write_zc_eq m addr pfn fl hlk hW hzc
  rcases halloc : m.pages.allocate with ⟨p1, pfnN⟩
  obtain ⟨alen, amono, apfnlt, aoldbit, anewbit, abitne, agetne, acount⟩ :=
    allocate_spec m.pages hlen p1 pfnN halloc
  set pf : PageFrame := if PageFlags.intersects fl PageFlags.ZERO
      then EMPTY_PAGE else m.pages.get pfn with hpf
  set m' : MMU := { pages := p1.setFrame pfnN pf,
                    mapping := btreeInsert (page_number addr)
                      (pfnN, PageFlags.materialize fl) m.mapping } with hm'
  have heq' : m.probe_write addr = .ok (m', pfnN, PageFlags.materialize fl) := by
    rw [heq, halloc]
  have hbitnew : m'.pages.allocation_bitmap.getD pfnN false = true := by
    show (p1.setFrame pfnN pf).allocation_bitmap.getD pfnN false = true
    rw [(setFrame_spec p1 pfnN pf).2.1]
    exact anewbit
  have hget : ∀ j, m'.pages.get pfnN j =
      if PageFlags.intersects fl PageFlags.ZERO = true then 0
      else m.pages.get pfn j := by
    intro j
    have h0 : m'.pages.get pfnN = pf := (setFrame_spec p1 pfnN pf).2.2.2.1 apfnlt
    rw [h0, hpf]
    rcases hz : PageFlags.intersects fl PageFlags.ZERO with _ | _
    · simp
    · simp [EMPTY_PAGE]
  have hlkm : btreeLookup m'.mapping (page_number addr)
      = some (pfnN, PageFlags.materialize fl) := by
    show btreeLookup (btreeInsert (page_number addr)
        (pfnN, PageFlags.materialize fl) m.mapping) (page_number addr) = _
    rw [btreeLookup_insert, if_pos rfl]
  have hlkO : ∀ k, k ≠ page_number addr →
      btreeLookup m'.mapping k = btreeLookup m.mapping k := by
    intro k hk
    show btreeLookup (btreeInsert (page_number addr)
        (pfnN, PageFlags.materialize fl) m.mapping) k = _
    rw [btreeLookup_insert, if_neg hk]
  have hcount' : m'.pages.allocCount = m.pages.allocCount + 1 := by
    show (p1.setFrame pfnN pf).allocCount = _
    rw [(setFrame_spec p1 pfnN pf).2.2.1]
    exact acount
  have hWnew : PageFlags.intersects (PageFlags.materialize fl)
      PageFlags.PERM_W = true := by
    rw [materialize_perm_w fl hfl]
    exact hW
  have hzcnew : (PageFlags.intersects (PageFlags.materialize fl) PageFlags.ZERO
      || PageFlags.intersects (PageFlags.materialize fl) PageFlags.COW)
      = false := by
    rw [materialize_zero_clear fl hfl, materialize_cow_clear fl hfl]
    rfl
  have hidem := probe_write_not_zc_eq m' addr pfnN (PageFlags.materialize fl)
    hlkm hWnew hzcnew
  have hwc : ∀ buf : List Nat,
      page_number addr = page_number (addr + buf.length) →
      (m.write addr buf).1.pages.allocCount = m.pages.allocCount + 1 := by
    intro buf hsame
    have hnsp : ¬ page_number addr ≠ page_number (addr + buf.length) :=
      fun hc => hc hsame
    have hw : m.write addr buf
        = (m'.setFrame pfnN (writeRange (m'.pages.get pfnN)
            (page_offset addr) buf), none) := by
      rw [MMU.write, if_neg hnsp]
      simp only [heq']
    rw [hw]
    show (m'.pages.setFrame pfnN _).allocCount = _
    rw [(setFrame_spec m'.pages pfnN _).2.2.1]
    exact hcount'
  exact ⟨m', pfnN, heq', aoldbit, hbitnew, hget, hlkm, hlkO,
    materialize_zero_clear fl hfl, materialize_cow_clear fl hfl,
    materialize_perm_bits fl hfl, hcount', hidem, hwc,
    mmap_pages_eq, munmap_allocCount_le⟩

/-- C4 witness: the first write-probe of the freshly mapped lazy-zero
RW page at `0x1000` materializes a frame (count 0 → 1) and is
idempotent. -/
theorem C4_materialization_witness :
    ∃ m' pfn',
      (MMU.empty.mmap 0x1000 0x1000 3).1.probe_write 0x1234
        = .ok (m', pfn', PageFlags.materialize 11) ∧
      m'.pages.allocCount
        = (MMU.empty.mmap 0x1000 0x1000 3).1.pages.allocCount + 1 ∧
      m'.probe_write 0x1234 = .ok (m', pfn', PageFlags.materialize 11) := by
  obtain ⟨m', pfn', h1, _, _, _, _, _, _, _, _, hcount, hidem, _, _, _⟩ :=
    C4_materialization (MMU.empty.mmap 0x1000 0x1000 3).1 0x1234
      INVALID_PFN 11 rfl (by decide) (by decide) rfl rfl
  exact ⟨m', pfn', h1, hcount, hidem⟩

set_option maxHeartbeats 1000000 in
/-- C1 (amended): round-trip.  For every width `w ≤ PAGE_SIZE` (in
particular the supported 1/2/4/8/16 bytes) and every `w`-byte value
`v`, if the page containing `addr` is mapped both readable and writable
— writability alone does not suffice, since `read_w` additionally
requires the read permission — and, when the access straddles a page
boundary, the following page is too, then `write_w(addr, v)` succeeds
and `read_w(addr)` returns `v` (little-endian encoding on both
sides). -/
theorem C1_roundtrip (m : MMU) (addr w v pfn1 fl1 : Nat)
    (hWF : m.WF)
    (hw : w ≤ PAGE_SIZE) (hv : v < 256 ^ w)
    (h1 : btreeLookup m.mapping (page_number addr) = some (pfn1, fl1))
    (hR1 : PageFlags.intersects fl1 PageFlags.PERM_R = true)
    (hW1 : PageFlags.intersects fl1 PageFlags.PERM_W = true)
    (h2 : page_number addr ≠ page_number (addr + w) →
      ∃ pfn2 fl2,
        btreeLookup m.mapping (page_number addr + PAGE_SIZE)
          = some (pfn2, fl2) ∧
        PageFlags.intersects fl2 PageFlags.PERM_R = true ∧
        PageFlags.intersects fl2 PageFlags.PERM_W = true) :
    (m.write_uint addr w v).2 = none ∧
    (m.write_uint addr w v).1.read_uint addr w = .ok v := by
  rw [MMU.write_uint]
  have hlenc : (leEncode w v).length = w := leEncode_length w v
  have hfl1lt : fl1 < 32 := (WF_lookup hWF h1).1
  have h2' : page_number addr ≠ page_number (addr + (leEncode w v).length) →
      ∃ pfn2 fl2, btreeLookup m.mapping (page_number addr + PAGE_SIZE)
        = some (pfn2, fl2) ∧
        PageFlags.intersects fl2 PageFlags.PERM_W = true := by
    intro hsp
    rw [hlenc] at hsp
    obtain ⟨pfn2, fl2, ha, _, hb⟩ := h2 hsp
    exact ⟨pfn2, fl2, ha, hb⟩
  obtain ⟨hsucc, hWF', hbyte, hdom, hflags⟩ :=
    write_spec m addr (leEncode w v) pfn1 fl1 hWF (by rw [hlenc]; exact hw)
      h1 hW1 h2'
  refine ⟨hsucc, ?_⟩
  -- the post-state still maps the probed pages readably: flags evolved at
  -- most by materialization, which keeps the permission bits
  have hentry : ∀ P pfn fl, btreeLookup m.mapping P = some (pfn, fl) →
      fl < 32 → PageFlags.intersects fl PageFlags.PERM_R = true →
      ∃ pfn' fl',
        btreeLookup (m.write addr (leEncode w v)).1.mapping P
          = some (pfn', fl') ∧
        PageFlags.intersects fl' PageFlags.PERM_R = true := by
    intro P pfn fl hlkP hfllt hRP
    have hs := hdom P
    rw [hlkP] at hs
    obtain ⟨pr, hpr⟩ := Option.isSome_iff_exists.mp (by rw [hs]; rfl)
    rcases pr with ⟨pfn', fl'⟩
    obtain ⟨pfn0, fl0, hlk0, hor⟩ := hflags _ _ _ hpr
    rw [hlkP] at hlk0
    injection hlk0 with hA
    injection hA with hB hC
    subst hB
    subst hC
    refine ⟨pfn', fl', hpr, ?_⟩
    rcases hor with h | h
    · rw [h]
      exact hRP
    · rw [h, materialize_perm_r fl hfllt]
      exact hRP
  obtain ⟨pfn1', fl1', hlk1', hR1'⟩ :=
    hentry (page_number addr) pfn1 fl1 h1 hfl1lt hR1
  have h2fun : ∀ pn2, page_number addr ≠ page_number (addr + w) →
      pn2 = page_number addr + PAGE_SIZE →
      ∃ pfn2 fl2,
        btreeLookup (m.write addr (leEncode w v)).1.mapping pn2
          = some (pfn2, fl2) ∧
        PageFlags.intersects fl2 PageFlags.PERM_R = true := by
    intro pn2 hsp hpn2
    obtain ⟨pfn2, fl2, hlk2, hR2, _⟩ := h2 hsp
    have hfl2lt : fl2 < 32 := (WF_lookup hWF hlk2).1
    obtain ⟨pfn2', fl2', hlk2', hR2'⟩ :=
      hentry (page_number addr + PAGE_SIZE) pfn2 fl2 hlk2 hfl2lt hR2
    rw [hpn2]
    exact ⟨pfn2', fl2', hlk2', hR2'⟩
  have hread := read_spec (m.write addr (leEncode w v)).1 addr w pfn1' fl1'
    hw hlk1' hR1' h2fun
  have hbytes : ∀ i ∈ List.range w,
      (m.write addr (leEncode w v)).1.byteAt (addr + i)
        = (leEncode w v).getD i 0 := by
    intro i hi
    rw [List.mem_range] at hi
    rw [hbyte]
    rw [if_pos ⟨Nat.le_add_right _ _, by rw [hlenc]; omega⟩]
    congr 1
    omega
  have hmap2 : (List.range w).map
      (fun i => (m.write addr (leEncode w v)).1.byteAt (addr + i))
      = leEncode w v := by
    rw [List.map_congr_left hbytes]
    have := map_getD_range (leEncode w v)
    rw [hlenc] at this
    exact this
  rw [MMU.read_uint, hread, hmap2]
  show Except.ok (leDecode (leEncode w v)) = Except.ok v
  rw [leDecode_leEncode w v hv]

/-- C1 counterexample to the claim as stated: the page at `0x1000` is
mapped write-only, so `0x1234` is a writable address and
`write_u8(0x1234, 99)` succeeds, yet `read_u8(0x1234)` does not return
99 — it fails with `AddressNotReadable`, because the typed readers also
require the read permission. -/
theorem C1_roundtrip_counterexample :
    ((MMU.empty.mmap 0x1000 0x1000 2).1.write_u8 0x1234 99).2 = none ∧
    ((MMU.empty.mmap 0x1000 0x1000 2).1.write_u8 0x1234 99).1.read_u8 0x1234
      = .error (.AddressNotReadable 0x1234) :=
  ⟨rfl, rfl⟩

/-- C1 witness: a `u32` round-trip across the `0x2000` page boundary of
an RW-mapped region returns the written value. -/
theorem C1_roundtrip_witness :
    (((MMU.empty.mmap 0x1000 0x2000 3).1.write_u32 0x1FFD 0xDEADBEEF).2
      = none) ∧
    (((MMU.empty.mmap 0x1000 0x2000 3).1.write_u32 0x1FFD 0xDEADBEEF).1.read_u32
      0x1FFD = .ok 0xDEADBEEF) := by
  have h := C1_roundtrip (MMU.empty.mmap 0x1000 0x2000 3).1 0x1FFD 4
    0xDEADBEEF INVALID_PFN 11 (by decide) (by decide) (by decide)
    (by decide) rfl rfl
    (fun _ => ⟨INVALID_PFN, 11, by decide, rfl, rfl⟩)
  exact h

set_option maxHeartbeats 2000000 in
/-- C5: split-boundary equivalence.  For a byte list (in particular the
little-endian bytes of any multi-byte value) written at an address
whose range straddles a page boundary, with both pages mapped readable
and writable, the bulk `write` and the byte-at-a-time `write_u8` loop
both succeed, leave identical memory bytes everywhere, and reading the
range back — in bulk or decoded via `read_uint` — returns exactly the
written bytes and their little-endian decoding. -/
theorem C5_split_equivalence (m : MMU) (addr : Nat) (buf : List Nat)
    (pfn1 fl1 pfn2 fl2 : Nat)
    (hWF : m.WF)
    (hlen : buf.length ≤ PAGE_SIZE)
    (hbytes : ∀ b ∈ buf, b < 256)
    (hsp : page_number addr ≠ page_number (addr + buf.length))
    (h1 : btreeLookup m.mapping (page_number addr) = some (pfn1, fl1))
    (hR1 : PageFlags.intersects fl1 PageFlags.PERM_R = true)
    (hW1 : PageFlags.intersects fl1 PageFlags.PERM_W = true)
    (h2 : btreeLookup m.mapping (page_number addr + PAGE_SIZE)
      = some (pfn2, fl2))
    (hR2 : PageFlags.intersects fl2 PageFlags.PERM_R = true)
    (hW2 : PageFlags.intersects fl2 PageFlags.PERM_W = true) :
    (m.write addr buf).2 = none ∧
    (writeBytes m addr buf).2 = none ∧
    (∀ x, (writeBytes m addr buf).1.byteAt x
      = (m.write addr buf).1.byteAt x) ∧
    (m.write addr buf).1.read addr buf.length = .ok buf ∧
    (writeBytes m addr buf).1.read addr buf.length = .ok buf ∧
    (m.write addr buf).1.read_uint addr buf.length = .ok (leDecode buf) ∧
    (writeBytes m addr buf).1.read_uint addr buf.length
      = .ok (leDecode buf) := by
  have hda := page_number_add_offset addr
  have hoa := page_offset_lt addr
  have hfl1lt : fl1 < 32 := (WF_lookup hWF h1).1
  have hfl2lt : fl2 < 32 := (WF_lookup hWF h2).1
  obtain ⟨hsuccW, hWFW, hbyteW, hdomW, hflagsW⟩ :=
    write_spec m addr buf pfn1 fl1 hWF hlen h1 hW1
      (fun _ => ⟨pfn2, fl2, h2, hW2⟩)
  have hbound : addr + buf.length < page_number addr + 2 * PAGE_SIZE := by
    rw [PAGE_SIZE_eq] at hoa hlen ⊢
    omega
  obtain ⟨hsuccB, hWFB, hbyteB, hdomB, hflagsB⟩ :=
    writeBytes_spec buf m addr (page_number addr) hWF hbytes
      ⟨pfn1, fl1, h1, hW1⟩ ⟨pfn2, fl2, h2, hW2⟩
      (page_number_mod addr) (page_number_le addr) hbound
  -- flags evolve at most by materialization, which keeps readability
  have hentry : ∀ (mp : MMU),
      (∀ k, (btreeLookup mp.mapping k).isSome
        = (btreeLookup m.mapping k).isSome) →
      (∀ k pfn' fl', btreeLookup mp.mapping k = some (pfn', fl') →
        ∃ pfn fl, btreeLookup m.mapping k = some (pfn, fl) ∧
          (fl' = fl ∨ fl' = PageFlags.materialize fl)) →
      ∀ P pfn fl, btreeLookup m.mapping P = some (pfn, fl) →
      fl < 32 → PageFlags.intersects fl PageFlags.PERM_R = true →
      ∃ pfn' fl', btreeLookup mp.mapping P = some (pfn', fl') ∧
        PageFlags.intersects fl' PageFlags.PERM_R = true := by
    intro mp hdom hflags P pfn fl hlkP hfllt hRP
    have hs := hdom P
    rw [hlkP] at hs
    obtain ⟨pr, hpr⟩ := Option.isSome_iff_exists.mp (by rw [hs]; rfl)
    rcases pr with ⟨pfn', fl'⟩
    obtain ⟨pfn0, fl0, hlk0, hor⟩ := hflags _ _ _ hpr
    rw [hlkP] at hlk0
    injection hlk0 with hA
    injection hA with hB hC
    subst hB
    subst hC
    refine ⟨pfn', fl', hpr, ?_⟩
    rcases hor with h | h
    · rw [h]
      exact hRP
    · rw [h, materialize_perm_r fl hfllt]
      exact hRP
  -- both post-states read the range back as exactly `buf`
  have hreadok : ∀ (mp : MMU),
      (∀ k, (btreeLookup mp.mapping k).isSome
        = (btreeLookup m.mapping k).isSome) →
      (∀ k pfn' fl', btreeLookup mp.mapping k = some (pfn', fl') →
        ∃ pfn fl, btreeLookup m.mapping k = some (pfn, fl) ∧
          (fl' = fl ∨ fl' = PageFlags.materialize fl)) →
      (∀ x, mp.byteAt x =
        if addr ≤ x ∧ x < addr + buf.length then buf.getD (x - addr) 0
        else m.byteAt x) →
      mp.read addr buf.length = .ok buf := by
    intro mp hdom hflags hbyte
    obtain ⟨pfn1', fl1', hlk1', hR1'⟩ :=
      hentry mp hdom hflags _ pfn1 fl1 h1 hfl1lt hR1
    have h2fun : ∀ pn2,
        page_number addr ≠ page_number (addr + buf.length) →
        pn2 = page_number addr + PAGE_SIZE →
        ∃ pfn' fl', btreeLookup mp.mapping pn2 = some (pfn', fl') ∧
          PageFlags.intersects fl' PageFlags.PERM_R = true := by
      intro pn2 _ hpn2
      obtain ⟨pfn2', fl2', hlk2', hR2'⟩ :=
        hentry mp hdom hflags _ pfn2 fl2 h2 hfl2lt hR2
      rw [hpn2]
      exact ⟨pfn2', fl2', hlk2', hR2'⟩
    have hread := read_spec mp addr buf.length pfn1' fl1' hlen hlk1' hR1' h2fun
    have hbs : ∀ i ∈ List.range buf.length,
        mp.byteAt (addr + i) = buf.getD i 0 := by
      intro i hi
      rw [List.mem_range] at hi
      rw [hbyte, if_pos ⟨Nat.le_add_right _ _, by omega⟩]
      congr 1
      omega
    rw [hread, List.map_congr_left hbs, map_getD_range]
  have hrW := hreadok _ hdomW hflagsW hbyteW
  have hrB := hreadok _ hdomB hflagsB hbyteB
  refine ⟨hsuccW, hsuccB, ?_, hrW, hrB, ?_, ?_⟩
  · intro x
    rw [hbyteB x, hbyteW x]
  · rw [MMU.read_uint, hrW]
    rfl
  · rw [MMU.read_uint, hrB]
    rfl

/-- C5 witness: the spec's scenario.  After `map(0x1000, 0x2000, RW)`,
the straddling `write_u64(0x1FFF, 0x8877665544332211)` and the
byte-at-a-time writes of `0x11..0x88` at `0x1FFF..0x2006` both succeed,
and `read_u64(0x1FFF)` of the byte-written state returns
`0x8877665544332211`. -/
theorem C5_split_equivalence_witness :
    ((MMU.empty.mmap 0x1000 0x2000 3).1.write_u64 0x1FFF
      0x8877665544332211).2 = none ∧
    (writeBytes (MMU.empty.mmap 0x1000 0x2000 3).1 0x1FFF
      [0x11, 0x22, 0x33, 0x44, 0x55, 0x66, 0x77, 0x88]).2 = none ∧
    (writeBytes (MMU.empty.mmap 0x1000 0x2000 3).1 0x1FFF
      [0x11, 0x22, 0x33, 0x44, 0x55, 0x66, 0x77, 0x88]).1.read_u64 0x1FFF
      = .ok 0x8877665544332211 := by
  have h := C5_split_equivalence (MMU.empty.mmap 0x1000 0x2000 3).1 0x1FFF
    [0x11, 0x22, 0x33, 0x44, 0x55, 0x66, 0x77, 0x88]
    INVALID_PFN 11 INVALID_PFN 11 (by decide) (by decide) (by decide)
    (by decide) (by decide) rfl rfl (by decide) rfl rfl
  exact ⟨h.1, h.2.1, h.2.2.2.2.2.2⟩

end Lancelot
